import Mathlib

/-
A shallow embedding of the `debbie` in-memory table library
(src/selection.rs, src/index.rs, src/table.rs), together with proofs about it.

Modelling conventions:
* `Row<T>` wraps a `u32`; `Row::from_index(value: usize)` performs `value as u32`,
  i.e. reduction modulo 2^32.  Rows are modelled as `Nat`, with that cast made
  explicit wherever the source performs it (`Row::from_index`, and the
  `self.len() as u32` casts in `Table::select` / `Table::update`).
* `croaring::Bitmap` is out of scope per the library's design (it is used only
  through insert/remove/union/intersect/cardinality/ordered ascending
  iteration); it is modelled as `Finset Nat`, with ascending iteration given by
  `Finset.sort (· ≤ ·)`.
* `HashMap` fields are modelled as functions into `Option _`.
* `get_unchecked(_mut)` with an out-of-bounds row is undefined behaviour in the
  source; the model returns the table unchanged (for `update_row`) or a default
  element (for `retrieve_row`) there, and the theorems below only ever exercise
  in-bounds rows.
* In-place mutation is modelled by explicit state passing: each method returns
  the updated structure.
* The `Indexer` trait (the composite index a host registers for its record
  type) is modelled as a record of `add`/`remove` state transformers
  (`IndexerOps`); `EmptyIndexer` is the stateless instance, and `TriIndexer`
  is the composite bundling one index of each kind, mirroring the
  `PersonIndexer` wiring in src/lib.rs (fan-out of add/remove in fixed order).
-/

set_option maxHeartbeats 1000000

/-- Source: selection.rs `Row::from_index` — the row identifier stored for
storage position `value` is `value as u32`, i.e. `value % 2^32`. -/
def Row.from_index (value : Nat) : Nat := value % 2 ^ 32

/-- Source: selection.rs `Selection<T>`, a wrapper around a croaring bitmap
(a finite set of `u32` row identifiers). -/
abbrev Selection : Type := Finset Nat

/-- Source: selection.rs `Selection::empty`. -/
def Selection.empty : Selection := ∅

/-- Source: selection.rs `Selection::filled(count)` = `{0, …, count-1}`. -/
def Selection.filled (count : Nat) : Selection := Finset.range count

/-- Source: selection.rs `Selection::add`. -/
def Selection.add (s : Selection) (row : Nat) : Selection := insert row s

/-- Source: selection.rs `Selection::remove`. -/
def Selection.remove (s : Selection) (row : Nat) : Selection := s.erase row

/-- Source: selection.rs `Selection::of_row` (`empty()` then `add(row)`). -/
def Selection.of_row (row : Nat) : Selection := Selection.add Selection.empty row

/-- Source: selection.rs `Selection::len` (bitmap cardinality). -/
def Selection.len (s : Selection) : Nat := s.card

/-- Source: selection.rs `Selection::is_empty`. -/
def Selection.is_empty (s : Selection) : Bool := decide (s = ∅)

/-- Source: selection.rs `Selection::rows` — the bitmap's ascending iterator. -/
def Selection.rows (s : Selection) : List Nat := s.sort (· ≤ ·)

/-- Source: selection.rs `impl BitAnd for &Selection` (intersection). -/
def Selection.bitand (a b : Selection) : Selection := a ∩ b

/-- Source: selection.rs `impl BitOr for &Selection` (union). -/
def Selection.bitor (a b : Selection) : Selection := a ∪ b

/-- Source: index.rs `UniqueIndex<T, V>`: a key extractor plus a
`HashMap<V, Row<T>>` (modelled as `V → Option Nat`). -/
structure UniqueIndex (T V : Type) where
  predicate : T → V
  rows : V → Option Nat

/-- Source: index.rs `UniqueIndex::new`. -/
def UniqueIndex.new {T V : Type} (predicate : T → V) : UniqueIndex T V :=
  { predicate := predicate, rows := fun _ => none }

/-- Source: index.rs `UniqueIndex::get`. -/
def UniqueIndex.get {T V : Type} (idx : UniqueIndex T V) (value : V) : Option Nat :=
  idx.rows value

/-- Source: index.rs `impl Index for UniqueIndex`, `add`:
`self.rows.insert((self.predicate)(item), row)`. -/
def UniqueIndex.add {T V : Type} [DecidableEq V] (idx : UniqueIndex T V) (row : Nat)
    (item : T) : UniqueIndex T V :=
  { idx with rows := fun v => if v = idx.predicate item then some row else idx.rows v }

/-- Source: index.rs `impl Index for UniqueIndex`, `remove`:
`self.rows.remove(&(self.predicate)(item))` (the `row` argument is unused). -/
def UniqueIndex.remove {T V : Type} [DecidableEq V] (idx : UniqueIndex T V) (_row : Nat)
    (item : T) : UniqueIndex T V :=
  { idx with rows := fun v => if v = idx.predicate item then none else idx.rows v }

/-- Source: index.rs `DiscreteIndex<T, V>`: a key extractor plus a
`HashMap<V, Selection<T>>` (modelled as `V → Option Selection`).  The source's
`empty: Selection<T>` field is the shared empty constant that `get` returns on
a miss; the model inlines it as `Selection.empty`. -/
structure DiscreteIndex (T V : Type) where
  predicate : T → V
  selections : V → Option Selection

/-- Source: index.rs `DiscreteIndex::new`. -/
def DiscreteIndex.new {T V : Type} (predicate : T → V) : DiscreteIndex T V :=
  { predicate := predicate, selections := fun _ => none }

/-- Source: index.rs `DiscreteIndex::get`:
`self.selections.get(value).unwrap_or(&self.empty)`. -/
def DiscreteIndex.get {T V : Type} (idx : DiscreteIndex T V) (value : V) : Selection :=
  (idx.selections value).getD Selection.empty

/-- Source: index.rs `impl Index for DiscreteIndex`, `add`: inserts into the
existing group for the derived key, or creates a new singleton group. -/
def DiscreteIndex.add {T V : Type} [DecidableEq V] (idx : DiscreteIndex T V) (row : Nat)
    (item : T) : DiscreteIndex T V :=
  match idx.selections (idx.predicate item) with
  | some s =>
    { idx with selections := fun v =>
        if v = idx.predicate item then some (Selection.add s row) else idx.selections v }
  | none =>
    { idx with selections := fun v =>
        if v = idx.predicate item then some (Selection.add Selection.empty row)
        else idx.selections v }

/-- Source: index.rs `impl Index for DiscreteIndex`, `remove`: removes the row
from the group for the derived key if that group exists; empty groups are not
deleted. -/
def DiscreteIndex.remove {T V : Type} [DecidableEq V] (idx : DiscreteIndex T V) (row : Nat)
    (item : T) : DiscreteIndex T V :=
  match idx.selections (idx.predicate item) with
  | some s =>
    { idx with selections := fun v =>
        if v = idx.predicate item then some (Selection.remove s row) else idx.selections v }
  | none => idx

/-- Source: index.rs `BooleanIndex<T>`: a predicate plus one `Selection`. -/
structure BooleanIndex (T : Type) where
  predicate : T → Bool
  selection : Selection

/-- Source: index.rs `BooleanIndex::new`. -/
def BooleanIndex.new {T : Type} (predicate : T → Bool) : BooleanIndex T :=
  { predicate := predicate, selection := Selection.empty }

/-- Source: index.rs `BooleanIndex::get`. -/
def BooleanIndex.get {T : Type} (idx : BooleanIndex T) : Selection := idx.selection

/-- Source: index.rs `impl Index for BooleanIndex`, `add`: evaluates the
predicate and conditionally inserts. -/
def BooleanIndex.add {T : Type} (idx : BooleanIndex T) (row : Nat) (item : T) :
    BooleanIndex T :=
  if idx.predicate item then { idx with selection := Selection.add idx.selection row }
  else idx

/-- Source: index.rs `impl Index for BooleanIndex`, `remove`: unconditionally
removes the row (the `item` argument is unused and the predicate is not
evaluated). -/
def BooleanIndex.remove {T : Type} (idx : BooleanIndex T) (row : Nat) (_item : T) :
    BooleanIndex T :=
  { idx with selection := Selection.remove idx.selection row }

/-- Source: table.rs trait `Indexer<T>`: the composite index registered for a
record type, as a pair of `add`/`remove` state transformers over an indexer
state `S`. -/
structure IndexerOps (S T : Type) where
  add : S → Nat → T → S
  remove : S → Nat → T → S

/-- Source: table.rs `EmptyIndexer` — ignores every call. -/
def emptyIndexerOps {T : Type} : IndexerOps Unit T :=
  { add := fun s _ _ => s, remove := fun s _ _ => s }

/-- Source: table.rs `Table<T>`: the record storage plus the composite-index
state. -/
structure Table (S T : Type) where
  items : List T
  indexer : S

/-- Source: table.rs `Query<T, X>`: a selection plus (a reference to) the
table. -/
structure Query (S T : Type) where
  selection : Selection
  table : Table S T

/-- Source: table.rs `Table::in_memory` (empty storage, fresh indexer). -/
def Table.in_memory {S T : Type} (init : S) : Table S T :=
  { items := [], indexer := init }

/-- Source: table.rs `Table::len`. -/
def Table.len {S T : Type} (t : Table S T) : Nat := t.items.length

/-- Source: table.rs `Table::is_empty`. -/
def Table.is_empty {S T : Type} (t : Table S T) : Bool := t.items.isEmpty

/-- Source: table.rs `Table::select` —
`Selection::filled(self.len() as u32)` (note the `as u32` cast). -/
def Table.select {S T : Type} (t : Table S T) : Query S T :=
  { selection := Selection.filled (t.items.length % 2 ^ 32), table := t }

/-- Source: table.rs `Table::update` — same initial selection as `select`,
but usable for `apply`. -/
def Table.update {S T : Type} (t : Table S T) : Query S T :=
  { selection := Selection.filled (t.items.length % 2 ^ 32), table := t }

/-- Source: table.rs `Table::insert`: derives the row identifier from the
current storage length (`Row::from_index(self.items.len())`), feeds the
indexer, appends the item. -/
def Table.insert {S T : Type} (O : IndexerOps S T) (t : Table S T) (item : T) :
    Table S T :=
  let row := Row.from_index t.items.length
  { items := t.items ++ [item], indexer := O.add t.indexer row item }

/-- Source: table.rs `Table::update_row`: read the current item, `remove` it
from the indexer under the old value, mutate in place, `add` it back under the
new value.  Out-of-bounds rows are undefined behaviour in the source
(`get_unchecked_mut`); the model leaves the table unchanged there. -/
def Table.update_row {S T : Type} (O : IndexerOps S T) (t : Table S T) (row : Nat)
    (f : T → T) : Table S T :=
  match t.items[row]? with
  | none => t
  | some item =>
    { items := t.items.set row (f item),
      indexer := O.add (O.remove t.indexer row item) row (f item) }

/-- Source: table.rs `Table::retrieve_row` (value-copied out; out-of-bounds is
undefined behaviour in the source, modelled by `default`). -/
def Table.retrieve_row {S T : Type} [Inhabited T] (t : Table S T) (row : Nat) : T :=
  t.items.getD row default

/-- Source: table.rs `Query::and`. -/
def Query.and {S T : Type} (q : Query S T) (s : Selection) : Query S T :=
  { q with selection := Selection.bitand q.selection s }

/-- Source: table.rs `Query::or`. -/
def Query.or {S T : Type} (q : Query S T) (s : Selection) : Query S T :=
  { q with selection := Selection.bitor q.selection s }

/-- Source: table.rs `Query::none`. -/
def Query.none {S T : Type} (q : Query S T) : Query S T :=
  { q with selection := Selection.empty }

/-- Source: table.rs `Query::only_row`. -/
def Query.only_row {S T : Type} (q : Query S T) (row : Nat) : Query S T :=
  { q with selection := Selection.of_row row }

/-- Source: table.rs `Query::maybe_only_row`. -/
def Query.maybe_only_row {S T : Type} (q : Query S T) : Option Nat → Query S T
  | some row => Query.only_row q row
  | Option.none => Query.none q

/-- Source: table.rs `Query::only`. -/
def Query.only {S T : Type} (q : Query S T) (s : Selection) : Query S T :=
  { q with selection := s }

/-- Source: table.rs `Query::count` (selection cardinality). -/
def Query.count {S T : Type} (q : Query S T) : Nat := Selection.len q.selection

/-- Source: table.rs `Query::iter` / `Table::retrieve_many`: materialize the
records for the selection's rows in ascending order. -/
def Query.iter {S T : Type} [Inhabited T] (q : Query S T) : List T :=
  (Selection.rows q.selection).map q.table.retrieve_row

/-- Source: table.rs `Query::first`. -/
def Query.first {S T : Type} [Inhabited T] (q : Query S T) : Option T :=
  (Query.iter q).head?

/-- Source: table.rs `Query::apply`: `for row in self.selection.rows() {
self.table.update_row(row, update) }` — one `update_row` per selected row, in
the bitmap's ascending order, over the selection held by the query. -/
def Query.apply {S T : Type} (O : IndexerOps S T) (q : Query S T) (f : T → T) :
    Table S T :=
  (Selection.rows q.selection).foldl (fun t row => Table.update_row O t row f) q.table

/-- A table mutation: the two mutating entry points of table.rs. -/
inductive Op (T : Type) where
  | insert (item : T)
  | update (row : Nat) (f : T → T)

/-- Run one mutation. -/
def Table.step {S T : Type} (O : IndexerOps S T) (t : Table S T) : Op T → Table S T
  | Op.insert item => Table.insert O t item
  | Op.update row f => Table.update_row O t row f

/-- Run a sequence of mutations. -/
def Table.exec {S T : Type} (O : IndexerOps S T) (t : Table S T) :
    List (Op T) → Table S T
  | [] => t
  | op :: rest => Table.exec O (Table.step O t op) rest

/-- `P` holds at every state reached while running `ops` from `t`
(including the initial and final states). -/
def Table.StatesOk {S T : Type} (O : IndexerOps S T) (P : Table S T → Prop) :
    Table S T → List (Op T) → Prop
  | t, [] => P t
  | t, op :: rest => P t ∧ Table.StatesOk O P (Table.step O t op) rest

/-- The composite index bundling one index of each kind, mirroring the
`PersonIndexer` wiring in src/lib.rs. -/
structure TriIndexer (T V W : Type) where
  uniq : UniqueIndex T V
  disc : DiscreteIndex T W
  boolIdx : BooleanIndex T

/-- Fresh composite index (source: `Default for PersonIndexer`). -/
def TriIndexer.new {T V W : Type} (ukey : T → V) (dkey : T → W) (bpred : T → Bool) :
    TriIndexer T V W :=
  { uniq := UniqueIndex.new ukey
    disc := DiscreteIndex.new dkey
    boolIdx := BooleanIndex.new bpred }

/-- Source: `impl Indexer for PersonIndexer` — fan out `add`/`remove` to every
member index in a fixed order. -/
def triOps {T V W : Type} [DecidableEq V] [DecidableEq W] :
    IndexerOps (TriIndexer T V W) T :=
  { add := fun s row item =>
      { uniq := UniqueIndex.add s.uniq row item
        disc := DiscreteIndex.add s.disc row item
        boolIdx := BooleanIndex.add s.boolIdx row item }
    remove := fun s row item =>
      { uniq := UniqueIndex.remove s.uniq row item
        disc := DiscreteIndex.remove s.disc row item
        boolIdx := BooleanIndex.remove s.boolIdx row item } }

/-- Reference definition following the spec's words (for claim C1): the index
state "as if `add(r, x)` had been called once" for every current row `r` with
its current record `x`, in row order, starting from a fresh indexer. -/
def TriIndexer.rebuilt {T V W : Type} [DecidableEq V] [DecidableEq W] [Inhabited T]
    (ukey : T → V) (dkey : T → W) (bpred : T → Bool) (items : List T) :
    TriIndexer T V W :=
  (List.range items.length).foldl
    (fun s r => IndexerOps.add triOps s r (items.getD r default))
    (TriIndexer.new ukey dkey bpred)

/-- The table reached from an empty table with the composite index by a given
mutation sequence. -/
def c1Table {T V W : Type} [DecidableEq V] [DecidableEq W] (ukey : T → V)
    (dkey : T → W) (bpred : T → Bool) (ops : List (Op T)) :
    Table (TriIndexer T V W) T :=
  Table.exec triOps (Table.in_memory (TriIndexer.new ukey dkey bpred)) ops

/-- The unique-index keys derived from the table's current records are
pairwise distinct. -/
def KeysDistinct {T V W : Type} (t : Table (TriIndexer T V W) T) : Prop :=
  (t.items.map t.indexer.uniq.predicate).Nodup

/-- The discrete index is observationally the canonical grouping of the
current records: each key's group is exactly the set of rows whose current
record derives that key. -/
def DiscCanon {T V W : Type} [DecidableEq W] [Inhabited T]
    (t : Table (TriIndexer T V W) T) : Prop :=
  ∀ v, DiscreteIndex.get t.indexer.disc v =
    (Finset.range t.items.length).filter
      (fun r => t.indexer.disc.predicate (t.items.getD r default) = v)

/-- The boolean index holds exactly the rows whose current record satisfies
the predicate. -/
def BoolCanon {T V W : Type} [Inhabited T] (t : Table (TriIndexer T V W) T) : Prop :=
  BooleanIndex.get t.indexer.boolIdx =
    (Finset.range t.items.length).filter
      (fun r => t.indexer.boolIdx.predicate (t.items.getD r default) = true)

/-- A unique index is canonical for a record list when it maps each row's
derived key to that row, and keys derived from no row to nothing. -/
def UniqCanonL {T V : Type} [Inhabited T] (u : UniqueIndex T V) (items : List T) : Prop :=
  (∀ r, r < items.length →
    UniqueIndex.get u (u.predicate (items.getD r default)) = some r) ∧
  (∀ v, (∀ r, r < items.length → u.predicate (items.getD r default) ≠ v) →
    UniqueIndex.get u v = Option.none)

/-- The table's unique index maps each current row's derived key to that row,
and maps keys derived from no current row to nothing. -/
def UniqCanon {T V W : Type} [Inhabited T] (t : Table (TriIndexer T V W) T) : Prop :=
  UniqCanonL t.indexer.uniq t.items

/-- An indexer that logs every row handed to `add`, in call order (used to
observe which row identifiers `insert` assigns). -/
def logOps {T : Type} : IndexerOps (List Nat) T :=
  { add := fun s row _ => s ++ [row], remove := fun s _ _ => s }

/-- Concrete mutation sequence for the C1 counterexample: two records with a
colliding unique key, then an update of the second one. -/
def c1exOps : List (Op Nat) :=
  [Op.insert 5, Op.insert 5, Op.update 1 (fun _ => 7)]

/-- The table reached by `c1exOps` (unique key: the record value itself). -/
def c1exTable : Table (TriIndexer Nat Nat Nat) Nat :=
  c1Table (fun x => x) (fun x => x % 2) (fun x => decide (10 ≤ x)) c1exOps

/-- Concrete mutation sequence for the C1 witness: all unique keys stay
pairwise distinct at every intermediate state. -/
def c1wOps : List (Op Nat) :=
  [Op.insert 5, Op.insert 12, Op.update 0 (fun x => x + 30)]

/-- The table reached by `c1wOps`. -/
def c1wTable : Table (TriIndexer Nat Nat Nat) Nat :=
  c1Table (fun x => x) (fun x => x % 2) (fun x => decide (10 ≤ x)) c1wOps

/-- A table built by 2^32 + 1 inserts, logging assigned row identifiers. -/
def c2big : Table (List Nat) Unit :=
  Table.exec logOps (Table.in_memory []) (List.replicate (2 ^ 32 + 1) (Op.insert ()))

/-- A table built by 2^32 inserts with the empty indexer. -/
def c9big : Table Unit Unit :=
  Table.exec emptyIndexerOps (Table.in_memory ()) (List.replicate (2 ^ 32) (Op.insert ()))

/-- A tiny concrete table used by witnesses. -/
def t10 : Table Unit Nat :=
  Table.insert emptyIndexerOps (Table.insert emptyIndexerOps (Table.in_memory ()) 5) 8

/-- Partial rebuild (first `m` rows) of the claim-side reference indexer
`TriIndexer.rebuilt`; `rebuiltAux … items items.length = TriIndexer.rebuilt …
items`. -/
def rebuiltAux {T V W : Type} [DecidableEq V] [DecidableEq W] [Inhabited T]
    (ukey : T → V) (dkey : T → W) (bpred : T → Bool) (items : List T) (m : Nat) :
    TriIndexer T V W :=
  (List.range m).foldl
    (fun s r => IndexerOps.add triOps s r (items.getD r default))
    (TriIndexer.new ukey dkey bpred)

/-- A concrete discrete index used by witnesses: rows 0 and 1 filed under
keys 0 and 1 respectively (key extractor: value mod 2). -/
def didx5 : DiscreteIndex Nat Nat :=
  DiscreteIndex.add (DiscreteIndex.add (DiscreteIndex.new (fun x => x % 2)) 0 4) 1 7

-- ————————————————————————————————————————————————————————————————————————
-- Helper lemmas
-- ————————————————————————————————————————————————————————————————————————

theorem getD_append_lt {α : Type} (l l' : List α) (d : α) (n : Nat)
    (h : n < l.length) : (l ++ l').getD n d = l.getD n d := by
  simp [List.getD_eq_getElem?_getD, List.getElem?_append, h]

theorem getD_concat_length {α : Type} (l : List α) (a d : α) :
    (l ++ [a]).getD l.length d = a := by
  simp [List.getD_eq_getElem?_getD, List.getElem?_concat_length]

theorem getD_set_self {α : Type} (l : List α) (a d : α) (i : Nat)
    (h : i < l.length) : (l.set i a).getD i d = a := by
  simp [List.getD_eq_getElem?_getD, List.getElem?_set_self', List.getElem?_eq_getElem h]

theorem getD_set_ne {α : Type} (l : List α) (a d : α) {i j : Nat} (h : i ≠ j) :
    (l.set i a).getD j d = l.getD j d := by
  simp [List.getD_eq_getElem?_getD, List.getElem?_set_ne h]

theorem uniq_get_add {T V : Type} [DecidableEq V] (idx : UniqueIndex T V)
    (row : Nat) (item : T) (v : V) :
    UniqueIndex.get (UniqueIndex.add idx row item) v =
      if v = idx.predicate item then some row else UniqueIndex.get idx v := rfl

theorem uniq_get_remove {T V : Type} [DecidableEq V] (idx : UniqueIndex T V)
    (row : Nat) (item : T) (v : V) :
    UniqueIndex.get (UniqueIndex.remove idx row item) v =
      if v = idx.predicate item then Option.none else UniqueIndex.get idx v := rfl

theorem disc_get_add {T V : Type} [DecidableEq V] (idx : DiscreteIndex T V)
    (row : Nat) (item : T) (v : V) :
    DiscreteIndex.get (DiscreteIndex.add idx row item) v =
      if v = idx.predicate item then Selection.add (DiscreteIndex.get idx v) row
      else DiscreteIndex.get idx v := by
  unfold DiscreteIndex.add
  cases h : idx.selections (idx.predicate item) with
  | none =>
    by_cases hv : v = idx.predicate item
    · subst hv; simp [DiscreteIndex.get, h]
    · simp [DiscreteIndex.get, hv]
  | some s =>
    by_cases hv : v = idx.predicate item
    · subst hv; simp [DiscreteIndex.get, h]
    · simp [DiscreteIndex.get, hv]

theorem disc_get_remove {T V : Type} [DecidableEq V] (idx : DiscreteIndex T V)
    (row : Nat) (item : T) (v : V) :
    DiscreteIndex.get (DiscreteIndex.remove idx row item) v =
      if v = idx.predicate item then Selection.remove (DiscreteIndex.get idx v) row
      else DiscreteIndex.get idx v := by
  unfold DiscreteIndex.remove
  cases h : idx.selections (idx.predicate item) with
  | none =>
    by_cases hv : v = idx.predicate item
    · subst hv; simp [DiscreteIndex.get, h, Selection.remove, Selection.empty]
    · simp [DiscreteIndex.get, hv]
  | some s =>
    by_cases hv : v = idx.predicate item
    · subst hv; simp [DiscreteIndex.get, h]
    · simp [DiscreteIndex.get, hv]

theorem bool_get_add {T : Type} (idx : BooleanIndex T) (row : Nat) (item : T) :
    BooleanIndex.get (BooleanIndex.add idx row item) =
      if idx.predicate item then Selection.add (BooleanIndex.get idx) row
      else BooleanIndex.get idx := by
  unfold BooleanIndex.add
  by_cases hp : idx.predicate item <;> simp [BooleanIndex.get, hp]

theorem bool_get_remove {T : Type} (idx : BooleanIndex T) (row : Nat) (item : T) :
    BooleanIndex.get (BooleanIndex.remove idx row item) =
      Selection.remove (BooleanIndex.get idx) row := rfl

-- ————————————————————————————————————————————————————————————————————————
-- Claim theorems (first batch)
-- ————————————————————————————————————————————————————————————————————————

/-- C3: UniqueIndex is last-write-wins: if two items derive the same key, two
successive `add` calls leave `get` at that key returning the second row; the
prior mapping is silently overwritten (no `add` can fail). -/
theorem claim_C3 {T V : Type} [DecidableEq V] (idx : UniqueIndex T V) (r1 r2 : Nat)
    (item1 item2 : T) (h : idx.predicate item1 = idx.predicate item2) :
    UniqueIndex.get (UniqueIndex.add (UniqueIndex.add idx r1 item1) r2 item2)
        (idx.predicate item1) = some r2 ∧
    UniqueIndex.get (UniqueIndex.add (UniqueIndex.add idx r1 item1) r2 item2)
        (idx.predicate item2) = some r2 := by
  constructor <;> simp [UniqueIndex.get, UniqueIndex.add, h]

/-- Witness for C3 at a concrete index (keys 3 and 13 collide mod 10). -/
theorem claim_C3_witness :
    (UniqueIndex.new (fun x : Nat => x % 10)).predicate 3 =
      (UniqueIndex.new (fun x : Nat => x % 10)).predicate 13 ∧
    UniqueIndex.get
      (UniqueIndex.add (UniqueIndex.add (UniqueIndex.new (fun x : Nat => x % 10)) 0 3) 1 13)
      ((UniqueIndex.new (fun x : Nat => x % 10)).predicate 3) = some 1 :=
  ⟨by decide, (claim_C3 (UniqueIndex.new (fun x : Nat => x % 10)) 0 1 3 13 (by decide)).1⟩

/-- C4: UniqueIndex `remove` deletes the mapping for the key derived from the
item (after it, `get` at that key returns none), mappings for every other key
are untouched, and a stale call is accepted silently (removal is total and
keyed only on the derived key, not on the row). -/
theorem claim_C4 {T V : Type} [DecidableEq V] (idx : UniqueIndex T V) (row : Nat)
    (item : T) :
    UniqueIndex.get (UniqueIndex.remove idx row item) (idx.predicate item) = Option.none ∧
    (∀ v, v ≠ idx.predicate item →
      UniqueIndex.get (UniqueIndex.remove idx row item) v = UniqueIndex.get idx v) ∧
    (∀ row', UniqueIndex.remove idx row item = UniqueIndex.remove idx row' item) := by
  refine ⟨?_, ?_, ?_⟩
  · simp [UniqueIndex.get, UniqueIndex.remove]
  · intro v hv; simp [UniqueIndex.get, UniqueIndex.remove, hv]
  · intro row'; rfl

/-- Witness for C4 at a concrete index: a stale remove (key 3 maps to row 0,
remove is called with row 7) still clears key 3 and leaves key 4 alone. -/
theorem claim_C4_witness :
    UniqueIndex.get
      (UniqueIndex.remove
        (UniqueIndex.add (UniqueIndex.add (UniqueIndex.new (fun x : Nat => x % 10)) 0 3) 2 4)
        7 3)
      ((UniqueIndex.add (UniqueIndex.add (UniqueIndex.new (fun x : Nat => x % 10)) 0 3) 2 4).predicate 3)
      = Option.none ∧
    (4 ≠ (UniqueIndex.add (UniqueIndex.add (UniqueIndex.new (fun x : Nat => x % 10)) 0 3) 2 4).predicate 3 ∧
     UniqueIndex.get
      (UniqueIndex.remove
        (UniqueIndex.add (UniqueIndex.add (UniqueIndex.new (fun x : Nat => x % 10)) 0 3) 2 4)
        7 3) 4
      = UniqueIndex.get
        (UniqueIndex.add (UniqueIndex.add (UniqueIndex.new (fun x : Nat => x % 10)) 0 3) 2 4) 4) :=
  ⟨(claim_C4 (UniqueIndex.add (UniqueIndex.add (UniqueIndex.new (fun x : Nat => x % 10)) 0 3) 2 4) 7 3).1,
   by decide,
   (claim_C4 (UniqueIndex.add (UniqueIndex.add (UniqueIndex.new (fun x : Nat => x % 10)) 0 3) 2 4) 7 3).2.1
     4 (by decide)⟩

/-- C7: selection algebra laws: intersection commutes, the empty set is a
right identity for union, intersecting with `filled n` is the identity on
selections whose members are all below `n`, and the cardinality of an
intersection is at most the minimum of the two cardinalities. -/
theorem claim_C7 (A B : Selection) (n : Nat) :
    Selection.bitand A B = Selection.bitand B A ∧
    Selection.bitor A Selection.empty = A ∧
    ((∀ a ∈ A, a < n) → Selection.bitand A (Selection.filled n) = A) ∧
    Selection.len (Selection.bitand A B) ≤
      min (Selection.len A) (Selection.len B) := by
  refine ⟨Finset.inter_comm A B, Finset.union_empty A, ?_, ?_⟩
  · intro h
    exact Finset.inter_eq_left.mpr fun a ha => Finset.mem_range.mpr (h a ha)
  · exact le_min (Finset.card_le_card Finset.inter_subset_left)
      (Finset.card_le_card Finset.inter_subset_right)

/-- Witness for C7: the bounded-universe intersection law at a concrete
selection. -/
theorem claim_C7_witness :
    (∀ a ∈ ({0, 2} : Selection), a < 3) ∧
    Selection.bitand {0, 2} (Selection.filled 3) = {0, 2} :=
  ⟨by decide, (claim_C7 {0, 2} Selection.empty 3).2.2.1 (by decide)⟩

/-- C10: insert frame effect: inserting a new item leaves every existing
record retrievable unchanged and grows the table length by exactly one. -/
theorem claim_C10 {S T : Type} [Inhabited T] (O : IndexerOps S T) (t : Table S T)
    (item : T) (r : Nat) (h : r < t.items.length) :
    Table.retrieve_row (Table.insert O t item) r = Table.retrieve_row t r ∧
    (Table.insert O t item).items.length = t.items.length + 1 := by
  constructor
  · unfold Table.retrieve_row Table.insert
    exact getD_append_lt _ _ _ _ h
  · simp [Table.insert]

/-- Witness for C10 at a concrete two-row table. -/
theorem claim_C10_witness :
    0 < t10.items.length ∧
    Table.retrieve_row (Table.insert emptyIndexerOps t10 9) 0 = Table.retrieve_row t10 0 ∧
    (Table.insert emptyIndexerOps t10 9).items.length = t10.items.length + 1 :=
  ⟨by decide,
   (claim_C10 emptyIndexerOps t10 9 0 (by decide)).1,
   (claim_C10 emptyIndexerOps t10 9 0 (by decide)).2⟩

theorem Table.update_row_length {S T : Type} (O : IndexerOps S T) (t : Table S T)
    (row : Nat) (f : T → T) :
    (Table.update_row O t row f).items.length = t.items.length := by
  unfold Table.update_row
  cases h : t.items[row]? <;> simp [List.length_set]

theorem Table.exec_insert_replicate_length {S T : Type} (O : IndexerOps S T) (n : Nat)
    (t : Table S T) (item : T) :
    (Table.exec O t (List.replicate n (Op.insert item))).items.length =
      t.items.length + n := by
  induction n generalizing t with
  | zero => simp [Table.exec]
  | succ n ih =>
    rw [List.replicate_succ]
    show (Table.exec O (Table.step O t (Op.insert item))
      (List.replicate n (Op.insert item))).items.length = _
    rw [ih]
    simp [Table.step, Table.insert]
    omega

theorem logOps_exec_inserts {T : Type} (l : List T) (t : Table (List Nat) T) :
    (Table.exec logOps t (l.map Op.insert)).indexer =
      t.indexer ++ (List.range' t.items.length l.length).map Row.from_index ∧
    (Table.exec logOps t (l.map Op.insert)).items.length = t.items.length + l.length := by
  induction l generalizing t with
  | nil => simp [Table.exec]
  | cons a l ih =>
    have h := ih (Table.step logOps t (Op.insert a))
    rw [List.map_cons]
    have hstep : Table.exec logOps t (Op.insert a :: l.map Op.insert) =
        Table.exec logOps (Table.step logOps t (Op.insert a)) (l.map Op.insert) := rfl
    constructor
    · rw [hstep, h.1]
      simp [Table.step, Table.insert, logOps, List.range'_succ, List.append_assoc]
    · rw [hstep, h.2]
      simp [Table.step, Table.insert]
      omega

-- ————————————————————————————————————————————————————————————————————————
-- Claim theorems (second batch): C9, C2, C8
-- ————————————————————————————————————————————————————————————————————————

/-- C9 (amended): for every table holding fewer than 2^32 rows — in particular
after any sequence of inserts staying below that bound — a fresh read-only
selector with no narrowing applied has `count` equal to the table length (its
initial selection is the full row set).  The bound is forced by the
`self.len() as u32` cast in `Table::select`. -/
theorem claim_C9_amended {S T : Type} (t : Table S T) (h : t.items.length < 2 ^ 32) :
    Query.count (Table.select t) = Table.len t ∧
    (Table.select t).selection = Finset.range t.items.length := by
  have h' : t.items.length % 2 ^ 32 = t.items.length := Nat.mod_eq_of_lt h
  constructor
  · show (Finset.range (t.items.length % 2 ^ 32)).card = t.items.length
    rw [h', Finset.card_range]
  · show Finset.range (t.items.length % 2 ^ 32) = Finset.range t.items.length
    rw [h']

/-- Witness for C9 at a concrete two-row table. -/
theorem claim_C9_witness :
    t10.items.length < 2 ^ 32 ∧ Query.count (Table.select t10) = Table.len t10 :=
  ⟨by decide, (claim_C9_amended t10 (by decide)).1⟩

/-- Counterexample for C9 as stated: after 2^32 inserts the `self.len() as
u32` cast in `Table::select` wraps to 0, so the fresh selector's count is 0,
not the table length. -/
theorem claim_C9_counterexample :
    Query.count (Table.select c9big) ≠ Table.len c9big ∧
    Table.len c9big = 2 ^ 32 ∧ Query.count (Table.select c9big) = 0 := by
  have hlen : c9big.items.length = 2 ^ 32 := by
    have h := Table.exec_insert_replicate_length emptyIndexerOps (2 ^ 32)
      (Table.in_memory () : Table Unit Unit) ()
    have h2 : (Table.in_memory () : Table Unit Unit).items.length + 2 ^ 32 = 2 ^ 32 :=
      Nat.zero_add _
    exact h.trans h2
  have hcount : Query.count (Table.select c9big) = 0 := by
    show (Finset.range (c9big.items.length % 2 ^ 32)).card = 0
    rw [hlen, Nat.mod_self, Finset.range_zero, Finset.card_empty]
  refine ⟨?_, hlen, hcount⟩
  rw [hcount]
  show (0 : Nat) ≠ c9big.items.length
  rw [hlen]
  norm_num

/-- C2 (amended): row identifiers are assigned sequentially in insertion
order — for any sequence of at most 2^32 inserts from an empty table, the row
identifiers handed to the indexer are exactly `0, …, N-1` in order; each
insert appends its item and (below the 2^32 bound forced by the `as u32`
cast in `Row::from_index`) hands the indexer exactly the current table
length as the row identifier; and `update_row` never changes the table
length nor any record position other than the updated row's (whose record
stays in place).  There is no deletion, so identifiers are never reused or
renumbered below the bound. -/
theorem claim_C2_amended {T : Type} :
    (∀ (l : List T), l.length ≤ 2 ^ 32 →
      (Table.exec logOps (Table.in_memory ([] : List Nat)) (l.map Op.insert)).indexer =
        List.range l.length) ∧
    (∀ {S : Type} (O : IndexerOps S T) (t : Table S T) (item : T),
      (Table.insert O t item).items = t.items ++ [item] ∧
      (t.items.length < 2 ^ 32 →
        (Table.insert O t item).indexer = O.add t.indexer t.items.length item)) ∧
    (∀ {S : Type} (O : IndexerOps S T) (t : Table S T) (row : Nat) (f : T → T),
      (Table.update_row O t row f).items.length = t.items.length ∧
      ∀ (d : T) (r : Nat), r ≠ row →
        (Table.update_row O t row f).items.getD r d = t.items.getD r d) := by
  refine ⟨?_, ?_, ?_⟩
  · intro l hl
    have h := (logOps_exec_inserts l (Table.in_memory [] : Table (List Nat) T)).1
    rw [h]
    simp only [Table.in_memory, List.nil_append, List.length_nil]
    rw [← List.range_eq_range']
    have hcong : ∀ a ∈ List.range l.length, Row.from_index a = id a := by
      intro a ha
      exact Nat.mod_eq_of_lt (lt_of_lt_of_le (List.mem_range.mp ha) hl)
    rw [List.map_congr_left hcong, List.map_id]
  · intro S O t item
    refine ⟨rfl, fun hlen => ?_⟩
    show O.add t.indexer (Row.from_index t.items.length) item = _
    rw [Row.from_index, Nat.mod_eq_of_lt hlen]
  · intro S O t row f
    refine ⟨Table.update_row_length O t row f, ?_⟩
    intro d r hr
    unfold Table.update_row
    cases h : t.items[row]? with
    | none => rfl
    | some item => exact getD_set_ne _ _ _ (Ne.symm hr)

/-- Witness for C2 (amended) at a concrete three-insert table plus a concrete
insert and update on `t10`. -/
theorem claim_C2_witness :
    ([(3 : Nat), 4, 5].length ≤ 2 ^ 32 ∧
      (Table.exec logOps (Table.in_memory []) ([(3 : Nat), 4, 5].map Op.insert)).indexer =
        List.range [(3 : Nat), 4, 5].length) ∧
    (Table.insert emptyIndexerOps t10 9).items = t10.items ++ [9] ∧
    (t10.items.length < 2 ^ 32 ∧
      (Table.insert emptyIndexerOps t10 9).indexer =
        emptyIndexerOps.add t10.indexer t10.items.length 9) ∧
    (Table.update_row emptyIndexerOps t10 0 (fun x => x + 1)).items.length =
      t10.items.length ∧
    ((1 : Nat) ≠ 0 ∧
      (Table.update_row emptyIndexerOps t10 0 (fun x => x + 1)).items.getD 1 0 =
        t10.items.getD 1 0) :=
  ⟨⟨by norm_num, claim_C2_amended.1 [3, 4, 5] (by norm_num)⟩,
   ((claim_C2_amended (T := Nat)).2.1 emptyIndexerOps t10 9).1,
   ⟨by decide, ((claim_C2_amended (T := Nat)).2.1 emptyIndexerOps t10 9).2 (by decide)⟩,
   ((claim_C2_amended (T := Nat)).2.2 emptyIndexerOps t10 0 (fun x => x + 1)).1,
   ⟨by decide, ((claim_C2_amended (T := Nat)).2.2 emptyIndexerOps t10 0 (fun x => x + 1)).2
      0 1 (by decide)⟩⟩

/-- Counterexample for C2 as stated: over 2^32 + 1 inserts the `as u32` cast
in `Row::from_index` wraps, so the sequence of row identifiers handed to the
indexer is not `0, …, N-1`: the identifier assigned by the final insert is 0
(the table length at that moment is 2^32), reusing row identifier 0. -/
theorem claim_C2_counterexample :
    c2big.indexer ≠ List.range (2 ^ 32 + 1) ∧
    c2big.items.length = 2 ^ 32 + 1 ∧
    c2big.indexer.getD (2 ^ 32) 777 = 0 ∧
    c2big.indexer.getD 0 777 = 0 := by
  have hrepl : List.replicate (2 ^ 32 + 1) (Op.insert ()) =
      (List.replicate (2 ^ 32 + 1) ()).map Op.insert := List.map_replicate.symm
  have h := logOps_exec_inserts (List.replicate (2 ^ 32 + 1) ())
    (Table.in_memory [] : Table (List Nat) Unit)
  have hidx : c2big.indexer = (List.range (2 ^ 32 + 1)).map Row.from_index := by
    show (Table.exec logOps (Table.in_memory [])
      (List.replicate (2 ^ 32 + 1) (Op.insert ()))).indexer = _
    rw [hrepl, h.1]
    show [] ++ (List.range' 0 (List.replicate (2 ^ 32 + 1) ()).length).map Row.from_index = _
    rw [List.nil_append, List.length_replicate, ← List.range_eq_range']
  have hlen : c2big.items.length = 2 ^ 32 + 1 := by
    have h2 := h.2
    rw [← hrepl] at h2
    rw [List.length_replicate] at h2
    have h3 : (Table.in_memory [] : Table (List Nat) Unit).items.length + (2 ^ 32 + 1) =
        2 ^ 32 + 1 := Nat.zero_add _
    exact h2.trans h3
  have hg : c2big.indexer.getD (2 ^ 32) 777 = 0 := by
    rw [hidx, List.getD_eq_getElem?_getD, List.getElem?_map,
      List.getElem?_range (Nat.lt_succ_self _)]
    show Row.from_index (2 ^ 32) = 0
    exact Nat.mod_self _
  have hg0 : c2big.indexer.getD 0 777 = 0 := by
    rw [hidx, List.getD_eq_getElem?_getD, List.getElem?_map,
      List.getElem?_range (Nat.succ_pos _)]
    show Row.from_index 0 = 0
    exact Nat.zero_mod _
  refine ⟨?_, hlen, hg, hg0⟩
  intro heq
  have h5 : (List.range (2 ^ 32 + 1)).getD (2 ^ 32) 777 = 0 := by rw [← heq]; exact hg
  have h6 : (List.range (2 ^ 32 + 1)).getD (2 ^ 32) 777 = 2 ^ 32 := by
    rw [List.getD_eq_getElem?_getD, List.getElem?_range (Nat.lt_succ_self _)]
    rfl
  exact absurd (h5.symm.trans h6) (by norm_num)

theorem foldl_update_row_length {S T : Type} (O : IndexerOps S T) (f : T → T) :
    ∀ (L : List Nat) (t : Table S T),
      (L.foldl (fun t row => Table.update_row O t row f) t).items.length =
        t.items.length := by
  intro L
  induction L with
  | nil => intro t; rfl
  | cons a L ih =>
    intro t
    show (L.foldl _ (Table.update_row O t a f)).items.length = _
    rw [ih, Table.update_row_length]

theorem foldl_update_row_getD {S T : Type} (O : IndexerOps S T) (f : T → T) (d : T) :
    ∀ (L : List Nat), L.Nodup → ∀ (t : Table S T) (r : Nat), r < t.items.length →
      (L.foldl (fun t row => Table.update_row O t row f) t).items.getD r d =
        if r ∈ L then f (t.items.getD r d) else t.items.getD r d := by
  intro L
  induction L with
  | nil => intro _ t r _; simp
  | cons a L ih =>
    intro hnd t r hr
    rw [List.nodup_cons] at hnd
    have hstep : (a :: L).foldl (fun t row => Table.update_row O t row f) t =
        L.foldl (fun t row => Table.update_row O t row f) (Table.update_row O t a f) := rfl
    have hlen' : r < (Table.update_row O t a f).items.length := by
      rw [Table.update_row_length]; exact hr
    rw [hstep, ih hnd.2 (Table.update_row O t a f) r hlen']
    by_cases hra : r = a
    · subst hra
      rw [if_neg hnd.1, if_pos (List.mem_cons_self r L)]
      unfold Table.update_row
      cases h : t.items[r]? with
      | none =>
        rw [List.getElem?_eq_getElem hr] at h
        exact Option.noConfusion h
      | some item =>
        have hitem : item = t.items.getD r d := by
          rw [List.getD_eq_getElem?_getD, h]; rfl
        show (t.items.set r (f item)).getD r d = f (t.items.getD r d)
        rw [getD_set_self _ _ _ _ hr, hitem]
    · have ht' : (Table.update_row O t a f).items.getD r d = t.items.getD r d := by
        unfold Table.update_row
        cases h : t.items[a]? with
        | none => rfl
        | some item => exact getD_set_ne _ _ _ (fun he => hra he.symm)
      rw [ht']
      by_cases hrl : r ∈ L
      · rw [if_pos hrl, if_pos (List.mem_cons_of_mem a hrl)]
      · rw [if_neg hrl, if_neg (by simp [List.mem_cons, hra, hrl])]

/-- C8: `apply` folds `Table::update_row` over the selection's row list,
which enumerates exactly the selected rows, in strictly ascending order, each
exactly once; the iterated set is the query's own selection, computed before
the first update and never refreshed (the fold's row list depends only on
`q.selection`).  Consequently each in-bounds selected row's record has the
mutator applied exactly once and unselected rows are untouched. -/
theorem claim_C8 {S T : Type} (O : IndexerOps S T) (q : Query S T) (f : T → T) :
    Query.apply O q f =
      (Selection.rows q.selection).foldl (fun t row => Table.update_row O t row f)
        q.table ∧
    (Selection.rows q.selection).Sorted (· < ·) ∧
    (∀ r, (Selection.rows q.selection).count r = if r ∈ q.selection then 1 else 0) ∧
    (∀ (d : T) (r : Nat), r < q.table.items.length →
      (Query.apply O q f).items.getD r d =
        if r ∈ q.selection then f (q.table.items.getD r d)
        else q.table.items.getD r d) := by
  refine ⟨rfl, Finset.sort_sorted_lt q.selection, ?_, ?_⟩
  · intro r
    by_cases hr : r ∈ q.selection
    · rw [if_pos hr]
      exact List.count_eq_one_of_mem (Finset.sort_nodup _ _) ((Finset.mem_sort _).mpr hr)
    · rw [if_neg hr]
      exact List.count_eq_zero_of_not_mem (fun hm => hr ((Finset.mem_sort _).mp hm))
  · intro d r hrlen
    have h := foldl_update_row_getD O f d (Selection.rows q.selection)
      (Finset.sort_nodup _ _) q.table r hrlen
    show ((Selection.rows q.selection).foldl (fun t row => Table.update_row O t row f)
      q.table).items.getD r d = _
    rw [h]
    by_cases hr : r ∈ q.selection
    · rw [if_pos (show r ∈ Selection.rows q.selection from (Finset.mem_sort _).mpr hr),
        if_pos hr]
    · rw [if_neg (show r ∉ Selection.rows q.selection from
        fun hm => hr ((Finset.mem_sort _).mp hm)), if_neg hr]

/-- Witness for C8: applying a mutator through a full selection on `t10`
updates row 0's record in place. -/
theorem claim_C8_witness :
    (0 : Nat) < (Table.select t10).table.items.length ∧
    (Query.apply emptyIndexerOps (Table.select t10) (fun x => x + 1)).items.getD 0 0 =
      if 0 ∈ (Table.select t10).selection
      then (fun x : Nat => x + 1) ((Table.select t10).table.items.getD 0 0)
      else (Table.select t10).table.items.getD 0 0 :=
  ⟨by decide,
   (claim_C8 emptyIndexerOps (Table.select t10) (fun x => x + 1)).2.2.2 0 0 (by decide)⟩

theorem getD_mem {α : Type} (l : List α) (d : α) {r : Nat} (h : r < l.length) :
    l.getD r d ∈ l := by
  rw [List.getD_eq_getElem l d h]
  exact List.getElem_mem h

theorem map_nodup_getD_inj {α β : Type} (g : α → β) (l : List α) (d : α)
    (h : (l.map g).Nodup) {i j : Nat} (hi : i < l.length) (hj : j < l.length)
    (he : g (l.getD i d) = g (l.getD j d)) : i = j := by
  rw [List.getD_eq_getElem l d hi, List.getD_eq_getElem l d hj] at he
  by_contra hne
  have hP := List.pairwise_iff_getElem.mp h
  have hmi : i < (l.map g).length := by rw [List.length_map]; exact hi
  have hmj : j < (l.map g).length := by rw [List.length_map]; exact hj
  rcases Nat.lt_or_ge i j with hij | hij
  · exact hP i j hmi hmj hij (by rw [List.getElem_map, List.getElem_map]; exact he)
  · have hji : j < i := Nat.lt_of_le_of_ne hij (fun hh => hne hh.symm)
    exact hP j i hmj hmi hji (by rw [List.getElem_map, List.getElem_map]; exact he.symm)

theorem disc_predicate_add {T V : Type} [DecidableEq V]
    (idx : DiscreteIndex T V) (row : Nat) (item : T) :
    (DiscreteIndex.add idx row item).predicate = idx.predicate := by
  unfold DiscreteIndex.add
  cases h : idx.selections (idx.predicate item) <;> rfl

theorem disc_predicate_remove {T V : Type} [DecidableEq V]
    (idx : DiscreteIndex T V) (row : Nat) (item : T) :
    (DiscreteIndex.remove idx row item).predicate = idx.predicate := by
  unfold DiscreteIndex.remove
  cases h : idx.selections (idx.predicate item) <;> rfl

theorem bool_predicate_add {T : Type} (idx : BooleanIndex T) (row : Nat)
    (item : T) : (BooleanIndex.add idx row item).predicate = idx.predicate := by
  unfold BooleanIndex.add
  by_cases hp : idx.predicate item <;> simp [hp]

theorem Table.statesOk_first {S T : Type} (O : IndexerOps S T) (P : Table S T → Prop) :
    ∀ (t : Table S T) (ops : List (Op T)), Table.StatesOk O P t ops → P t
  | _, [], h => h
  | _, _ :: _, h => h.1

theorem Table.statesOk_last {S T : Type} (O : IndexerOps S T) (P : Table S T → Prop) :
    ∀ (ops : List (Op T)) (t : Table S T), Table.StatesOk O P t ops →
      P (Table.exec O t ops)
  | [], _, h => h
  | _ :: rest, _, h => Table.statesOk_last O P rest _ h.2

theorem Table.exec_length_mono {S T : Type} (O : IndexerOps S T) :
    ∀ (ops : List (Op T)) (t : Table S T),
      t.items.length ≤ (Table.exec O t ops).items.length := by
  intro ops
  induction ops with
  | nil => intro t; exact le_refl _
  | cons op rest ih =>
    intro t
    refine le_trans ?_ (ih (Table.step O t op))
    cases op with
    | insert item =>
      show t.items.length ≤ (t.items ++ [item]).length
      simp
    | update row f =>
      show t.items.length ≤ (Table.update_row O t row f).items.length
      rw [Table.update_row_length]

theorem step_predicates {T V W : Type} [DecidableEq V] [DecidableEq W]
    (t : Table (TriIndexer T V W) T) (op : Op T) :
    (Table.step triOps t op).indexer.uniq.predicate = t.indexer.uniq.predicate ∧
    (Table.step triOps t op).indexer.disc.predicate = t.indexer.disc.predicate ∧
    (Table.step triOps t op).indexer.boolIdx.predicate = t.indexer.boolIdx.predicate := by
  cases op with
  | insert item =>
    refine ⟨rfl, ?_, ?_⟩
    · exact disc_predicate_add _ _ _
    · exact bool_predicate_add _ _ _
  | update row f =>
    cases h : t.items[row]? with
    | none =>
      have hu : Table.step triOps t (Op.update row f) = t := by
        show Table.update_row triOps t row f = t
        unfold Table.update_row
        rw [h]
      rw [hu]
      exact ⟨rfl, rfl, rfl⟩
    | some item =>
      have hu : Table.step triOps t (Op.update row f) =
          { items := t.items.set row (f item),
            indexer := IndexerOps.add triOps
              (IndexerOps.remove triOps t.indexer row item) row (f item) } := by
        show Table.update_row triOps t row f = _
        unfold Table.update_row
        rw [h]
      rw [hu]
      refine ⟨rfl, ?_, ?_⟩
      · show (DiscreteIndex.add (DiscreteIndex.remove t.indexer.disc row item) row
          (f item)).predicate = _
        rw [disc_predicate_add, disc_predicate_remove]
      · show (BooleanIndex.add (BooleanIndex.remove t.indexer.boolIdx row item) row
          (f item)).predicate = _
        rw [bool_predicate_add]
        rfl

theorem exec_predicates {T V W : Type} [DecidableEq V] [DecidableEq W] :
    ∀ (ops : List (Op T)) (t : Table (TriIndexer T V W) T),
      (Table.exec triOps t ops).indexer.uniq.predicate = t.indexer.uniq.predicate ∧
      (Table.exec triOps t ops).indexer.disc.predicate = t.indexer.disc.predicate ∧
      (Table.exec triOps t ops).indexer.boolIdx.predicate =
        t.indexer.boolIdx.predicate := by
  intro ops
  induction ops with
  | nil => intro t; exact ⟨rfl, rfl, rfl⟩
  | cons op rest ih =>
    intro t
    have h1 := ih (Table.step triOps t op)
    have h2 := step_predicates t op
    exact ⟨h1.1.trans h2.1, h1.2.1.trans h2.2.1, h1.2.2.trans h2.2.2⟩

/-- C5: DiscreteIndex absent-key behaviour: `get` on a fresh index, on any
never-added key, and on any emptied group returns the empty selection (never
an error); `remove` removes the row from the derived key's group if present,
never creates or deletes groups, and leaves every other group untouched. -/
theorem claim_C5 {T V : Type} [DecidableEq V] (idx : DiscreteIndex T V) (row : Nat)
    (item : T) (v : V) :
    (∀ p : T → V, DiscreteIndex.get (DiscreteIndex.new p) v = Selection.empty) ∧
    (idx.selections v = Option.none → DiscreteIndex.get idx v = Selection.empty) ∧
    (idx.selections v = some Selection.empty →
      DiscreteIndex.get idx v = Selection.empty) ∧
    ((DiscreteIndex.remove idx row item).selections v).isSome =
      (idx.selections v).isSome ∧
    row ∉ DiscreteIndex.get (DiscreteIndex.remove idx row item) (idx.predicate item) ∧
    DiscreteIndex.get (DiscreteIndex.remove idx row item) v =
      (if v = idx.predicate item then Selection.remove (DiscreteIndex.get idx v) row
       else DiscreteIndex.get idx v) := by
  refine ⟨fun p => rfl, ?_, ?_, ?_, ?_, disc_get_remove idx row item v⟩
  · intro h
    unfold DiscreteIndex.get
    rw [h]
    rfl
  · intro h
    unfold DiscreteIndex.get
    rw [h]
    rfl
  · unfold DiscreteIndex.remove
    cases h : idx.selections (idx.predicate item) with
    | none => rfl
    | some s =>
      by_cases hv : v = idx.predicate item
      · subst hv
        simp [h]
      · simp [hv]
  · rw [disc_get_remove, if_pos rfl]
    exact Finset.not_mem_erase row _

/-- Witness for C5 at the concrete index `didx5`. -/
theorem claim_C5_witness :
    DiscreteIndex.get (DiscreteIndex.new (fun x : Nat => x % 2)) 5 = Selection.empty ∧
    (didx5.selections 5 = Option.none ∧
      DiscreteIndex.get didx5 5 = Selection.empty) ∧
    ((DiscreteIndex.remove didx5 1 7).selections 0).isSome =
      (didx5.selections 0).isSome ∧
    1 ∉ DiscreteIndex.get (DiscreteIndex.remove didx5 1 7) (didx5.predicate 7) :=
  ⟨(claim_C5 didx5 1 7 5).1 (fun x : Nat => x % 2),
   ⟨by decide, (claim_C5 didx5 1 7 5).2.1 (by decide)⟩,
   (claim_C5 didx5 1 7 0).2.2.2.1,
   (claim_C5 didx5 1 7 0).2.2.2.2.1⟩

theorem uniq_predicate_add {T V : Type} [DecidableEq V] (idx : UniqueIndex T V)
    (row : Nat) (item : T) :
    (UniqueIndex.add idx row item).predicate = idx.predicate := rfl

theorem uniq_predicate_remove {T V : Type} [DecidableEq V]
    (idx : UniqueIndex T V) (row : Nat) (item : T) :
    (UniqueIndex.remove idx row item).predicate = idx.predicate := rfl

theorem bool_predicate_remove {T : Type} (idx : BooleanIndex T) (row : Nat)
    (item : T) : (BooleanIndex.remove idx row item).predicate = idx.predicate := rfl

theorem disc_canon_insert {T V W : Type} [DecidableEq V] [DecidableEq W] [Inhabited T]
    (t : Table (TriIndexer T V W) T) (item : T)
    (hlen : t.items.length < 2 ^ 32) (hc : DiscCanon t) :
    DiscCanon (Table.insert triOps t item) := by
  intro v
  have hrow : Row.from_index t.items.length = t.items.length := Nat.mod_eq_of_lt hlen
  have hget : DiscreteIndex.get (Table.insert triOps t item).indexer.disc v =
      if v = t.indexer.disc.predicate item
      then Selection.add (DiscreteIndex.get t.indexer.disc v) t.items.length
      else DiscreteIndex.get t.indexer.disc v := by
    show DiscreteIndex.get
      (DiscreteIndex.add t.indexer.disc (Row.from_index t.items.length) item) v = _
    rw [disc_get_add, hrow]
  have hpred : (Table.insert triOps t item).indexer.disc.predicate =
      t.indexer.disc.predicate := disc_predicate_add _ _ _
  have hitems : (Table.insert triOps t item).items = t.items ++ [item] := rfl
  have hlen1 : (t.items ++ [item]).length = t.items.length + 1 := by simp
  rw [hget, hpred, hitems, hlen1]
  ext r
  by_cases hv : v = t.indexer.disc.predicate item
  · rw [if_pos hv]
    simp only [Selection.add, Finset.mem_insert, hc v, Finset.mem_filter, Finset.mem_range]
    constructor
    · rintro (rfl | ⟨hr, hk⟩)
      · exact ⟨Nat.lt_succ_self _, by rw [getD_concat_length]; exact hv.symm⟩
      · exact ⟨Nat.lt_succ_of_lt hr, by rw [getD_append_lt _ _ _ _ hr]; exact hk⟩
    · rintro ⟨hr1, hk⟩
      rcases Nat.lt_succ_iff_lt_or_eq.mp hr1 with hr | rfl
      · exact Or.inr ⟨hr, by rw [getD_append_lt _ _ _ _ hr] at hk; exact hk⟩
      · exact Or.inl rfl
  · rw [if_neg hv, hc v]
    simp only [Finset.mem_filter, Finset.mem_range]
    constructor
    · rintro ⟨hr, hk⟩
      exact ⟨Nat.lt_succ_of_lt hr, by rw [getD_append_lt _ _ _ _ hr]; exact hk⟩
    · rintro ⟨hr1, hk⟩
      rcases Nat.lt_succ_iff_lt_or_eq.mp hr1 with hr | rfl
      · exact ⟨hr, by rw [getD_append_lt _ _ _ _ hr] at hk; exact hk⟩
      · rw [getD_concat_length] at hk
        exact absurd hk.symm hv

theorem disc_canon_update {T V W : Type} [DecidableEq V] [DecidableEq W] [Inhabited T]
    (t : Table (TriIndexer T V W) T) (row : Nat) (f : T → T) (hc : DiscCanon t) :
    DiscCanon (Table.update_row triOps t row f) := by
  cases h : t.items[row]? with
  | none =>
    have hu : Table.update_row triOps t row f = t := by
      unfold Table.update_row
      rw [h]
    rw [hu]
    exact hc
  | some item =>
    have hrlen : row < t.items.length := by
      by_contra hge
      rw [List.getElem?_eq_none (Nat.le_of_not_lt hge)] at h
      exact Option.noConfusion h
    have hitem : t.items.getD row default = item := by
      rw [List.getD_eq_getElem?_getD, h]
      rfl
    have hu : Table.update_row triOps t row f =
        { items := t.items.set row (f item),
          indexer := IndexerOps.add triOps
            (IndexerOps.remove triOps t.indexer row item) row (f item) } := by
      unfold Table.update_row
      rw [h]
    rw [hu]
    intro v
    show DiscreteIndex.get
        (DiscreteIndex.add (DiscreteIndex.remove t.indexer.disc row item) row (f item)) v =
      Finset.filter
        (fun r => (DiscreteIndex.add (DiscreteIndex.remove t.indexer.disc row item) row
          (f item)).predicate ((t.items.set row (f item)).getD r default) = v)
        (Finset.range (t.items.set row (f item)).length)
    rw [disc_get_add, disc_get_remove, disc_predicate_add,
      disc_predicate_remove, List.length_set]
    ext r
    by_cases hrr : r = row
    · subst hrr
      by_cases h1 : v = t.indexer.disc.predicate (f item)
      · rw [if_pos h1]
        simp only [Selection.add, Finset.mem_insert, Finset.mem_filter, Finset.mem_range]
        constructor
        · intro _
          exact ⟨hrlen, by rw [getD_set_self _ _ _ _ hrlen]; exact h1.symm⟩
        · intro _
          simp
      · rw [if_neg h1]
        by_cases h2 : v = t.indexer.disc.predicate item
        · rw [if_pos h2]
          simp only [Selection.remove, Finset.mem_erase, Finset.mem_filter, Finset.mem_range]
          constructor
          · rintro ⟨hne, _⟩
            exact absurd rfl hne
          · rintro ⟨_, hk⟩
            rw [getD_set_self _ _ _ _ hrlen] at hk
            exact absurd hk.symm h1
        · rw [if_neg h2, hc v]
          simp only [Finset.mem_filter, Finset.mem_range]
          constructor
          · rintro ⟨_, hk⟩
            rw [hitem] at hk
            exact absurd hk.symm h2
          · rintro ⟨_, hk⟩
            rw [getD_set_self _ _ _ _ hrlen] at hk
            exact absurd hk.symm h1
    · have hgd : (t.items.set row (f item)).getD r default = t.items.getD r default :=
        getD_set_ne _ _ _ (fun he => hrr he.symm)
      have hmem : (r ∈ (if v = t.indexer.disc.predicate (f item)
          then Selection.add (if v = t.indexer.disc.predicate item
            then Selection.remove (DiscreteIndex.get t.indexer.disc v) row
            else DiscreteIndex.get t.indexer.disc v) row
          else if v = t.indexer.disc.predicate item
            then Selection.remove (DiscreteIndex.get t.indexer.disc v) row
            else DiscreteIndex.get t.indexer.disc v)) ↔
          r ∈ DiscreteIndex.get t.indexer.disc v := by
        by_cases h1 : v = t.indexer.disc.predicate (f item)
        · rw [if_pos h1]
          by_cases h2 : v = t.indexer.disc.predicate item
          · rw [if_pos h2]
            simp [Selection.add, Selection.remove, hrr]
          · rw [if_neg h2]
            simp [Selection.add, hrr]
        · rw [if_neg h1]
          by_cases h2 : v = t.indexer.disc.predicate item
          · rw [if_pos h2]
            simp [Selection.remove, hrr]
          · rw [if_neg h2]
      rw [hmem, hc v]
      simp only [Finset.mem_filter, Finset.mem_range, hgd]

theorem bool_canon_insert {T V W : Type} [DecidableEq V] [DecidableEq W] [Inhabited T]
    (t : Table (TriIndexer T V W) T) (item : T)
    (hlen : t.items.length < 2 ^ 32) (hc : BoolCanon t) :
    BoolCanon (Table.insert triOps t item) := by
  unfold BoolCanon at hc
  have hrow : Row.from_index t.items.length = t.items.length := Nat.mod_eq_of_lt hlen
  have hget : BooleanIndex.get (Table.insert triOps t item).indexer.boolIdx =
      if t.indexer.boolIdx.predicate item
      then Selection.add (BooleanIndex.get t.indexer.boolIdx) t.items.length
      else BooleanIndex.get t.indexer.boolIdx := by
    show BooleanIndex.get
      (BooleanIndex.add t.indexer.boolIdx (Row.from_index t.items.length) item) = _
    rw [bool_get_add, hrow]
  have hpred : (Table.insert triOps t item).indexer.boolIdx.predicate =
      t.indexer.boolIdx.predicate := bool_predicate_add _ _ _
  have hitems : (Table.insert triOps t item).items = t.items ++ [item] := rfl
  have hlen1 : (t.items ++ [item]).length = t.items.length + 1 := by simp
  unfold BoolCanon
  rw [hget, hpred, hitems, hlen1]
  ext r
  by_cases hp : t.indexer.boolIdx.predicate item
  · rw [if_pos hp]
    simp only [Selection.add, Finset.mem_insert, hc, Finset.mem_filter, Finset.mem_range]
    constructor
    · rintro (rfl | ⟨hr, hk⟩)
      · exact ⟨Nat.lt_succ_self _, by rw [getD_concat_length]; exact hp⟩
      · exact ⟨Nat.lt_succ_of_lt hr, by rw [getD_append_lt _ _ _ _ hr]; exact hk⟩
    · rintro ⟨hr1, hk⟩
      rcases Nat.lt_succ_iff_lt_or_eq.mp hr1 with hr | rfl
      · exact Or.inr ⟨hr, by rw [getD_append_lt _ _ _ _ hr] at hk; exact hk⟩
      · exact Or.inl rfl
  · rw [if_neg hp]
    rw [hc]
    simp only [Finset.mem_filter, Finset.mem_range]
    constructor
    · rintro ⟨hr, hk⟩
      exact ⟨Nat.lt_succ_of_lt hr, by rw [getD_append_lt _ _ _ _ hr]; exact hk⟩
    · rintro ⟨hr1, hk⟩
      rcases Nat.lt_succ_iff_lt_or_eq.mp hr1 with hr | rfl
      · exact ⟨hr, by rw [getD_append_lt _ _ _ _ hr] at hk; exact hk⟩
      · rw [getD_concat_length] at hk
        exact absurd hk hp

theorem bool_canon_update {T V W : Type} [DecidableEq V] [DecidableEq W] [Inhabited T]
    (t : Table (TriIndexer T V W) T) (row : Nat) (f : T → T) (hc : BoolCanon t) :
    BoolCanon (Table.update_row triOps t row f) := by
  unfold BoolCanon at hc
  cases h : t.items[row]? with
  | none =>
    have hu : Table.update_row triOps t row f = t := by
      unfold Table.update_row
      rw [h]
    rw [hu]
    exact hc
  | some item =>
    have hrlen : row < t.items.length := by
      by_contra hge
      rw [List.getElem?_eq_none (Nat.le_of_not_lt hge)] at h
      exact Option.noConfusion h
    have hu : Table.update_row triOps t row f =
        { items := t.items.set row (f item),
          indexer := IndexerOps.add triOps
            (IndexerOps.remove triOps t.indexer row item) row (f item) } := by
      unfold Table.update_row
      rw [h]
    rw [hu]
    show BooleanIndex.get
        (BooleanIndex.add (BooleanIndex.remove t.indexer.boolIdx row item) row (f item)) =
      Finset.filter
        (fun r => (BooleanIndex.add (BooleanIndex.remove t.indexer.boolIdx row item) row
          (f item)).predicate ((t.items.set row (f item)).getD r default) = true)
        (Finset.range (t.items.set row (f item)).length)
    rw [bool_get_add, bool_get_remove, bool_predicate_add,
      bool_predicate_remove, List.length_set]
    ext r
    by_cases hrr : r = row
    · subst hrr
      by_cases hp : t.indexer.boolIdx.predicate (f item)
      · rw [if_pos hp]
        simp only [Selection.add, Selection.remove, Finset.mem_insert, Finset.mem_erase,
          Finset.mem_filter, Finset.mem_range]
        constructor
        · intro _
          exact ⟨hrlen, by rw [getD_set_self _ _ _ _ hrlen]; exact hp⟩
        · intro _
          simp
      · rw [if_neg hp]
        simp only [Selection.remove, Finset.mem_erase, Finset.mem_filter, Finset.mem_range]
        constructor
        · rintro ⟨hne, _⟩
          exact absurd rfl hne
        · rintro ⟨_, hk⟩
          rw [getD_set_self _ _ _ _ hrlen] at hk
          exact absurd hk hp
    · have hgd : (t.items.set row (f item)).getD r default = t.items.getD r default :=
        getD_set_ne _ _ _ (fun he => hrr he.symm)
      have hmem : (r ∈ (if t.indexer.boolIdx.predicate (f item)
          then Selection.add
            (Selection.remove (BooleanIndex.get t.indexer.boolIdx) row) row
          else Selection.remove (BooleanIndex.get t.indexer.boolIdx) row)) ↔
          r ∈ BooleanIndex.get t.indexer.boolIdx := by
        by_cases hp : t.indexer.boolIdx.predicate (f item) <;>
          simp [hp, Selection.add, Selection.remove, hrr]
      rw [hmem]
      rw [hc]
      simp only [Finset.mem_filter, Finset.mem_range, hgd]

theorem uniq_canonL_insert {T V : Type} [DecidableEq V] [Inhabited T]
    (u : UniqueIndex T V) (items : List T) (item : T) (row : Nat)
    (hrow : row = items.length)
    (hfresh : ∀ r, r < items.length →
      u.predicate (items.getD r default) ≠ u.predicate item)
    (hc : UniqCanonL u items) :
    UniqCanonL (UniqueIndex.add u row item) (items ++ [item]) := by
  constructor
  · intro r hr
    rw [List.length_append, List.length_singleton] at hr
    rw [uniq_predicate_add, uniq_get_add]
    rcases Nat.lt_succ_iff_lt_or_eq.mp hr with hlt | rfl
    · rw [getD_append_lt _ _ _ _ hlt, if_neg (hfresh r hlt)]
      exact hc.1 r hlt
    · rw [getD_concat_length, if_pos rfl, hrow]
  · intro v hv
    rw [uniq_get_add]
    have hvnew : v ≠ u.predicate item := by
      have h1 := hv items.length
        (by rw [List.length_append, List.length_singleton]; exact Nat.lt_succ_self _)
      rw [uniq_predicate_add, getD_concat_length] at h1
      exact fun he => h1 he.symm
    rw [if_neg hvnew]
    apply hc.2
    intro r hlt
    have h1 := hv r
      (by rw [List.length_append, List.length_singleton]; exact Nat.lt_succ_of_lt hlt)
    rw [uniq_predicate_add, getD_append_lt _ _ _ _ hlt] at h1
    exact h1

theorem uniq_canonL_update {T V : Type} [DecidableEq V] [Inhabited T]
    (u : UniqueIndex T V) (items : List T) (row : Nat) (item : T) (f : T → T)
    (hrlen : row < items.length) (hitem : items.getD row default = item)
    (hdpre : (items.map u.predicate).Nodup)
    (hdpost : ((items.set row (f item)).map u.predicate).Nodup)
    (hc : UniqCanonL u items) :
    UniqCanonL (UniqueIndex.add (UniqueIndex.remove u row item) row (f item))
      (items.set row (f item)) := by
  have hget : ∀ v, UniqueIndex.get
      (UniqueIndex.add (UniqueIndex.remove u row item) row (f item)) v =
      if v = u.predicate (f item) then some row
      else if v = u.predicate item then Option.none
      else UniqueIndex.get u v := by
    intro v
    rw [uniq_get_add, uniq_get_remove, uniq_predicate_remove]
  have hpred2 : (UniqueIndex.add (UniqueIndex.remove u row item) row
      (f item)).predicate = u.predicate := rfl
  constructor
  · intro r hr
    rw [List.length_set] at hr
    rw [hpred2, hget]
    by_cases hrr : r = row
    · subst hrr
      rw [getD_set_self _ _ _ _ hrlen, if_pos rfl]
    · have hgd : (items.set row (f item)).getD r default = items.getD r default :=
        getD_set_ne _ _ _ (fun he => hrr he.symm)
      rw [hgd]
      have hlt1 : r < (items.set row (f item)).length := by
        rw [List.length_set]; exact hr
      have hlt2 : row < (items.set row (f item)).length := by
        rw [List.length_set]; exact hrlen
      have hne1 : u.predicate (items.getD r default) ≠ u.predicate (f item) := by
        intro he
        exact hrr (map_nodup_getD_inj u.predicate (items.set row (f item)) default
          hdpost hlt1 hlt2 (by rw [hgd, getD_set_self _ _ _ _ hrlen]; exact he))
      have hne2 : u.predicate (items.getD r default) ≠ u.predicate item := by
        intro he
        exact hrr (map_nodup_getD_inj u.predicate items default hdpre hr hrlen
          (by rw [hitem]; exact he))
      rw [if_neg hne1, if_neg hne2]
      exact hc.1 r hr
  · intro v hv
    rw [hget]
    have hvnew : v ≠ u.predicate (f item) := by
      have h1 := hv row (by rw [List.length_set]; exact hrlen)
      rw [hpred2, getD_set_self _ _ _ _ hrlen] at h1
      exact fun he => h1 he.symm
    rw [if_neg hvnew]
    by_cases hvold : v = u.predicate item
    · rw [if_pos hvold]
    · rw [if_neg hvold]
      apply hc.2
      intro r hlt
      by_cases hrr : r = row
      · subst hrr
        rw [hitem]
        exact fun he => hvold he.symm
      · have h1 := hv r (by rw [List.length_set]; exact hlt)
        rw [hpred2, getD_set_ne _ _ _ (fun he => hrr he.symm)] at h1
        exact h1

theorem uniq_canon_step {T V W : Type} [DecidableEq V] [DecidableEq W] [Inhabited T]
    (t : Table (TriIndexer T V W) T) (op : Op T)
    (hlen : (Table.step triOps t op).items.length ≤ 2 ^ 32)
    (hdpre : KeysDistinct t) (hdpost : KeysDistinct (Table.step triOps t op))
    (hc : UniqCanon t) : UniqCanon (Table.step triOps t op) := by
  cases op with
  | insert item =>
    have hlt : t.items.length < 2 ^ 32 := by
      have h1 : (Table.step triOps t (Op.insert item)).items.length =
          t.items.length + 1 := by
        show (t.items ++ [item]).length = _
        simp
      rw [h1] at hlen
      omega
    have hfresh : ∀ r, r < t.items.length →
        t.indexer.uniq.predicate (t.items.getD r default) ≠
          t.indexer.uniq.predicate item := by
      have hnd : ((t.items ++ [item]).map t.indexer.uniq.predicate).Nodup := hdpost
      rw [List.map_append, List.nodup_append] at hnd
      intro r hr he
      have hmem : t.indexer.uniq.predicate (t.items.getD r default) ∈
          t.items.map t.indexer.uniq.predicate :=
        List.mem_map.mpr ⟨t.items.getD r default, getD_mem t.items default hr, rfl⟩
      exact hnd.2.2 hmem
        (by rw [List.map_singleton, he]; exact List.mem_singleton_self _)
    exact uniq_canonL_insert t.indexer.uniq t.items item
      (Row.from_index t.items.length) (Nat.mod_eq_of_lt hlt) hfresh hc
  | update row f =>
    cases h : t.items[row]? with
    | none =>
      have hu : Table.step triOps t (Op.update row f) = t := by
        show Table.update_row triOps t row f = t
        unfold Table.update_row
        rw [h]
      rw [hu]
      exact hc
    | some item =>
      have hrlen : row < t.items.length := by
        by_contra hge
        rw [List.getElem?_eq_none (Nat.le_of_not_lt hge)] at h
        exact Option.noConfusion h
      have hitem : t.items.getD row default = item := by
        rw [List.getD_eq_getElem?_getD, h]
        rfl
      have hu : Table.step triOps t (Op.update row f) =
          { items := t.items.set row (f item),
            indexer := IndexerOps.add triOps
              (IndexerOps.remove triOps t.indexer row item) row (f item) } := by
        show Table.update_row triOps t row f = _
        unfold Table.update_row
        rw [h]
      rw [hu] at hdpost ⊢
      have hdpost' : ((t.items.set row (f item)).map
          t.indexer.uniq.predicate).Nodup := hdpost
      exact uniq_canonL_update t.indexer.uniq t.items row item f hrlen hitem
        hdpre hdpost' hc

theorem disc_canon_exec {T V W : Type} [DecidableEq V] [DecidableEq W] [Inhabited T] :
    ∀ (ops : List (Op T)) (t : Table (TriIndexer T V W) T),
      DiscCanon t → (Table.exec triOps t ops).items.length ≤ 2 ^ 32 →
      DiscCanon (Table.exec triOps t ops) := by
  intro ops
  induction ops with
  | nil => intro t hc _; exact hc
  | cons op rest ih =>
    intro t hc hlen
    have hlenstep : (Table.step triOps t op).items.length ≤ 2 ^ 32 :=
      le_trans (Table.exec_length_mono triOps rest _) hlen
    have hc' : DiscCanon (Table.step triOps t op) := by
      cases op with
      | insert item =>
        have hlt : t.items.length < 2 ^ 32 := by
          have h1 : (Table.step triOps t (Op.insert item)).items.length =
              t.items.length + 1 := by
            show (t.items ++ [item]).length = _
            simp
          rw [h1] at hlenstep
          omega
        exact disc_canon_insert t item hlt hc
      | update row f => exact disc_canon_update t row f hc
    exact ih (Table.step triOps t op) hc' hlen

theorem bool_canon_exec {T V W : Type} [DecidableEq V] [DecidableEq W] [Inhabited T] :
    ∀ (ops : List (Op T)) (t : Table (TriIndexer T V W) T),
      BoolCanon t → (Table.exec triOps t ops).items.length ≤ 2 ^ 32 →
      BoolCanon (Table.exec triOps t ops) := by
  intro ops
  induction ops with
  | nil => intro t hc _; exact hc
  | cons op rest ih =>
    intro t hc hlen
    have hlenstep : (Table.step triOps t op).items.length ≤ 2 ^ 32 :=
      le_trans (Table.exec_length_mono triOps rest _) hlen
    have hc' : BoolCanon (Table.step triOps t op) := by
      cases op with
      | insert item =>
        have hlt : t.items.length < 2 ^ 32 := by
          have h1 : (Table.step triOps t (Op.insert item)).items.length =
              t.items.length + 1 := by
            show (t.items ++ [item]).length = _
            simp
          rw [h1] at hlenstep
          omega
        exact bool_canon_insert t item hlt hc
      | update row f => exact bool_canon_update t row f hc
    exact ih (Table.step triOps t op) hc' hlen

theorem uniq_canon_exec {T V W : Type} [DecidableEq V] [DecidableEq W] [Inhabited T] :
    ∀ (ops : List (Op T)) (t : Table (TriIndexer T V W) T),
      UniqCanon t → Table.StatesOk triOps KeysDistinct t ops →
      (Table.exec triOps t ops).items.length ≤ 2 ^ 32 →
      UniqCanon (Table.exec triOps t ops) := by
  intro ops
  induction ops with
  | nil => intro t hc _ _; exact hc
  | cons op rest ih =>
    intro t hc hok hlen
    have hdpost : KeysDistinct (Table.step triOps t op) :=
      Table.statesOk_first triOps KeysDistinct _ rest hok.2
    have hlenstep : (Table.step triOps t op).items.length ≤ 2 ^ 32 :=
      le_trans (Table.exec_length_mono triOps rest _) hlen
    have hc' : UniqCanon (Table.step triOps t op) :=
      uniq_canon_step t op hlenstep hok.1 hdpost hc
    exact ih (Table.step triOps t op) hc' hok.2 hlen

theorem init_disc_canon {T V W : Type} [DecidableEq V] [DecidableEq W] [Inhabited T]
    (ukey : T → V) (dkey : T → W) (bpred : T → Bool) :
    DiscCanon (Table.in_memory (TriIndexer.new ukey dkey bpred) :
      Table (TriIndexer T V W) T) := by
  intro v
  show DiscreteIndex.get (DiscreteIndex.new dkey) v = _
  rw [show Finset.range (Table.in_memory (TriIndexer.new ukey dkey bpred) :
      Table (TriIndexer T V W) T).items.length = (∅ : Finset Nat) from rfl]
  rw [Finset.filter_empty]
  rfl

theorem init_bool_canon {T V W : Type} [DecidableEq V] [DecidableEq W] [Inhabited T]
    (ukey : T → V) (dkey : T → W) (bpred : T → Bool) :
    BoolCanon (Table.in_memory (TriIndexer.new ukey dkey bpred) :
      Table (TriIndexer T V W) T) := by
  show BooleanIndex.get (BooleanIndex.new bpred) = _
  rw [show Finset.range (Table.in_memory (TriIndexer.new ukey dkey bpred) :
      Table (TriIndexer T V W) T).items.length = (∅ : Finset Nat) from rfl]
  rw [Finset.filter_empty]
  rfl

theorem init_uniq_canon {T V W : Type} [DecidableEq V] [DecidableEq W] [Inhabited T]
    (ukey : T → V) (dkey : T → W) (bpred : T → Bool) :
    UniqCanon (Table.in_memory (TriIndexer.new ukey dkey bpred) :
      Table (TriIndexer T V W) T) := by
  constructor
  · intro r hr
    exact absurd hr (Nat.not_lt_zero r)
  · intro v _
    rfl

theorem rebuiltAux_succ {T V W : Type} [DecidableEq V] [DecidableEq W] [Inhabited T]
    (ukey : T → V) (dkey : T → W) (bpred : T → Bool) (items : List T) (m : Nat) :
    rebuiltAux ukey dkey bpred items (m + 1) =
      IndexerOps.add triOps (rebuiltAux ukey dkey bpred items m) m
        (items.getD m default) := by
  unfold rebuiltAux
  rw [List.range_succ, List.foldl_append]
  rfl

theorem rebuiltAux_predicates {T V W : Type} [DecidableEq V] [DecidableEq W]
    [Inhabited T] (ukey : T → V) (dkey : T → W) (bpred : T → Bool) (items : List T)
    (m : Nat) :
    (rebuiltAux ukey dkey bpred items m).uniq.predicate = ukey ∧
    (rebuiltAux ukey dkey bpred items m).disc.predicate = dkey ∧
    (rebuiltAux ukey dkey bpred items m).boolIdx.predicate = bpred := by
  induction m with
  | zero => exact ⟨rfl, rfl, rfl⟩
  | succ m ih =>
    rw [rebuiltAux_succ]
    exact ⟨ih.1, (disc_predicate_add _ _ _).trans ih.2.1,
      (bool_predicate_add _ _ _).trans ih.2.2⟩

theorem rebuiltAux_disc_get {T V W : Type} [DecidableEq V] [DecidableEq W] [Inhabited T]
    (ukey : T → V) (dkey : T → W) (bpred : T → Bool) (items : List T) :
    ∀ (m : Nat), m ≤ items.length → ∀ v,
      DiscreteIndex.get (rebuiltAux ukey dkey bpred items m).disc v =
        (Finset.range m).filter (fun r => dkey (items.getD r default) = v) := by
  intro m
  induction m with
  | zero =>
    intro _ v
    rw [Finset.range_zero, Finset.filter_empty]
    rfl
  | succ m ih =>
    intro hm v
    have hmle : m ≤ items.length := le_of_lt (Nat.lt_of_succ_le hm)
    rw [rebuiltAux_succ]
    have hget : DiscreteIndex.get (IndexerOps.add triOps
        (rebuiltAux ukey dkey bpred items m) m (items.getD m default)).disc v =
        if v = (rebuiltAux ukey dkey bpred items m).disc.predicate (items.getD m default)
        then Selection.add
          (DiscreteIndex.get (rebuiltAux ukey dkey bpred items m).disc v) m
        else DiscreteIndex.get (rebuiltAux ukey dkey bpred items m).disc v := by
      show DiscreteIndex.get (DiscreteIndex.add
        (rebuiltAux ukey dkey bpred items m).disc m (items.getD m default)) v = _
      exact disc_get_add _ _ _ _
    rw [hget, (rebuiltAux_predicates ukey dkey bpred items m).2.1, ih hmle v,
      Finset.range_succ, Finset.filter_insert]
    by_cases hv : v = dkey (items.getD m default)
    · rw [if_pos hv, if_pos hv.symm]
      rfl
    · rw [if_neg hv, if_neg (fun he => hv he.symm)]

theorem rebuiltAux_bool_get {T V W : Type} [DecidableEq V] [DecidableEq W] [Inhabited T]
    (ukey : T → V) (dkey : T → W) (bpred : T → Bool) (items : List T) :
    ∀ (m : Nat), m ≤ items.length →
      BooleanIndex.get (rebuiltAux ukey dkey bpred items m).boolIdx =
        (Finset.range m).filter (fun r => bpred (items.getD r default) = true) := by
  intro m
  induction m with
  | zero =>
    intro _
    rw [Finset.range_zero, Finset.filter_empty]
    rfl
  | succ m ih =>
    intro hm
    have hmle : m ≤ items.length := le_of_lt (Nat.lt_of_succ_le hm)
    rw [rebuiltAux_succ]
    have hget : BooleanIndex.get (IndexerOps.add triOps
        (rebuiltAux ukey dkey bpred items m) m (items.getD m default)).boolIdx =
        if (rebuiltAux ukey dkey bpred items m).boolIdx.predicate (items.getD m default)
        then Selection.add
          (BooleanIndex.get (rebuiltAux ukey dkey bpred items m).boolIdx) m
        else BooleanIndex.get (rebuiltAux ukey dkey bpred items m).boolIdx := by
      show BooleanIndex.get (BooleanIndex.add
        (rebuiltAux ukey dkey bpred items m).boolIdx m (items.getD m default)) = _
      exact bool_get_add _ _ _
    rw [hget, (rebuiltAux_predicates ukey dkey bpred items m).2.2, ih hmle,
      Finset.range_succ, Finset.filter_insert]
    by_cases hp : bpred (items.getD m default) = true
    · rw [if_pos hp, if_pos hp]
      rfl
    · rw [if_neg hp, if_neg hp]

theorem rebuiltAux_uniq {T V W : Type} [DecidableEq V] [DecidableEq W] [Inhabited T]
    (ukey : T → V) (dkey : T → W) (bpred : T → Bool) (items : List T)
    (hnd : (items.map ukey).Nodup) :
    ∀ (m : Nat), m ≤ items.length →
      (∀ r, r < m → UniqueIndex.get (rebuiltAux ukey dkey bpred items m).uniq
        (ukey (items.getD r default)) = some r) ∧
      (∀ v, (∀ r, r < m → ukey (items.getD r default) ≠ v) →
        UniqueIndex.get (rebuiltAux ukey dkey bpred items m).uniq v = Option.none) := by
  intro m
  induction m with
  | zero =>
    intro _
    constructor
    · intro r hr
      exact absurd hr (Nat.not_lt_zero r)
    · intro v _
      rfl
  | succ m ih =>
    intro hm
    have hmlt : m < items.length := Nat.lt_of_succ_le hm
    have hmle : m ≤ items.length := le_of_lt hmlt
    have ih' := ih hmle
    have hget : ∀ v, UniqueIndex.get (rebuiltAux ukey dkey bpred items (m + 1)).uniq v =
        if v = ukey (items.getD m default) then some m
        else UniqueIndex.get (rebuiltAux ukey dkey bpred items m).uniq v := by
      intro v
      rw [rebuiltAux_succ]
      show UniqueIndex.get (UniqueIndex.add
        (rebuiltAux ukey dkey bpred items m).uniq m (items.getD m default)) v = _
      rw [uniq_get_add, (rebuiltAux_predicates ukey dkey bpred items m).1]
    constructor
    · intro r hr
      rw [hget]
      rcases Nat.lt_succ_iff_lt_or_eq.mp hr with hlt | rfl
      · rw [if_neg (fun he => (Nat.ne_of_lt hlt) (map_nodup_getD_inj ukey items default
          hnd (lt_of_lt_of_le hlt hmle) hmlt he))]
        exact ih'.1 r hlt
      · rw [if_pos rfl]
    · intro v hv
      rw [hget]
      have hv1 : v ≠ ukey (items.getD m default) := by
        have h1 := hv m (Nat.lt_succ_self m)
        exact fun he => h1 he.symm
      rw [if_neg hv1]
      exact ih'.2 v (fun r hlt => hv r (Nat.lt_succ_of_lt hlt))

/-- C1 (amended): after any mutation sequence on a table with registered
Unique/Discrete/Boolean indexes (and at most 2^32 rows, the bound forced by
the `as u32` row-identifier cast), the Discrete and Boolean indexes are
observationally exactly the state rebuilt by calling `add(r, x)` once per
current row; the Unique index is so as well provided the unique keys are
pairwise distinct at every intermediate state (with colliding keys its map is
history-dependent: the claim as stated fails, see the counterexample).
Unconditionally, right after `update_row(row, f)` each index queried by the
new derived key contains `row` and queried by the old derived key (if
different) does not. -/
theorem claim_C1_amended {T V W : Type} [DecidableEq V] [DecidableEq W] [Inhabited T]
    (ukey : T → V) (dkey : T → W) (bpred : T → Bool) (ops : List (Op T))
    (hlen : (c1Table ukey dkey bpred ops).items.length ≤ 2 ^ 32) :
    (∀ v, DiscreteIndex.get (c1Table ukey dkey bpred ops).indexer.disc v =
      DiscreteIndex.get (TriIndexer.rebuilt ukey dkey bpred
        (c1Table ukey dkey bpred ops).items).disc v) ∧
    (BooleanIndex.get (c1Table ukey dkey bpred ops).indexer.boolIdx =
      BooleanIndex.get (TriIndexer.rebuilt ukey dkey bpred
        (c1Table ukey dkey bpred ops).items).boolIdx) ∧
    (Table.StatesOk triOps KeysDistinct
        (Table.in_memory (TriIndexer.new ukey dkey bpred)) ops →
      ∀ v, UniqueIndex.get (c1Table ukey dkey bpred ops).indexer.uniq v =
        UniqueIndex.get (TriIndexer.rebuilt ukey dkey bpred
          (c1Table ukey dkey bpred ops).items).uniq v) ∧
    (∀ (t' : Table (TriIndexer T V W) T) (row : Nat) (f : T → T) (item : T),
      t'.items[row]? = some item →
      UniqueIndex.get (Table.update_row triOps t' row f).indexer.uniq
        (t'.indexer.uniq.predicate (f item)) = some row ∧
      (t'.indexer.uniq.predicate item ≠ t'.indexer.uniq.predicate (f item) →
        UniqueIndex.get (Table.update_row triOps t' row f).indexer.uniq
          (t'.indexer.uniq.predicate item) = Option.none) ∧
      row ∈ DiscreteIndex.get (Table.update_row triOps t' row f).indexer.disc
        (t'.indexer.disc.predicate (f item)) ∧
      (t'.indexer.disc.predicate item ≠ t'.indexer.disc.predicate (f item) →
        row ∉ DiscreteIndex.get (Table.update_row triOps t' row f).indexer.disc
          (t'.indexer.disc.predicate item)) ∧
      (row ∈ BooleanIndex.get (Table.update_row triOps t' row f).indexer.boolIdx ↔
        t'.indexer.boolIdx.predicate (f item) = true)) := by
  have hc1 : c1Table ukey dkey bpred ops =
      Table.exec triOps (Table.in_memory (TriIndexer.new ukey dkey bpred)) ops := rfl
  rw [hc1] at hlen ⊢
  have hpredu : (Table.exec triOps (Table.in_memory (TriIndexer.new ukey dkey bpred))
      ops).indexer.uniq.predicate = ukey :=
    (exec_predicates ops (Table.in_memory (TriIndexer.new ukey dkey bpred))).1
  have hpredd : (Table.exec triOps (Table.in_memory (TriIndexer.new ukey dkey bpred))
      ops).indexer.disc.predicate = dkey :=
    (exec_predicates ops (Table.in_memory (TriIndexer.new ukey dkey bpred))).2.1
  have hpredb : (Table.exec triOps (Table.in_memory (TriIndexer.new ukey dkey bpred))
      ops).indexer.boolIdx.predicate = bpred :=
    (exec_predicates ops (Table.in_memory (TriIndexer.new ukey dkey bpred))).2.2
  have hrb : TriIndexer.rebuilt ukey dkey bpred
      (Table.exec triOps (Table.in_memory (TriIndexer.new ukey dkey bpred)) ops).items =
      rebuiltAux ukey dkey bpred
        (Table.exec triOps (Table.in_memory (TriIndexer.new ukey dkey bpred)) ops).items
        (Table.exec triOps (Table.in_memory (TriIndexer.new ukey dkey bpred))
          ops).items.length := rfl
  refine ⟨?_, ?_, ?_, ?_⟩
  · have hd : DiscCanon (Table.exec triOps
        (Table.in_memory (TriIndexer.new ukey dkey bpred)) ops) :=
      disc_canon_exec ops (Table.in_memory (TriIndexer.new ukey dkey bpred))
        (init_disc_canon ukey dkey bpred) hlen
    intro v
    rw [hd v, hpredd, hrb,
      rebuiltAux_disc_get ukey dkey bpred _ _ (le_refl _) v]
  · have hb : BoolCanon (Table.exec triOps
        (Table.in_memory (TriIndexer.new ukey dkey bpred)) ops) :=
      bool_canon_exec ops (Table.in_memory (TriIndexer.new ukey dkey bpred))
        (init_bool_canon ukey dkey bpred) hlen
    unfold BoolCanon at hb
    rw [hb, hpredb, hrb, rebuiltAux_bool_get ukey dkey bpred _ _ (le_refl _)]
  · intro hok v
    have hu : UniqCanon (Table.exec triOps
        (Table.in_memory (TriIndexer.new ukey dkey bpred)) ops) :=
      uniq_canon_exec ops (Table.in_memory (TriIndexer.new ukey dkey bpred))
        (init_uniq_canon ukey dkey bpred) hok hlen
    have hnd : ((Table.exec triOps (Table.in_memory (TriIndexer.new ukey dkey bpred))
        ops).items.map ukey).Nodup := by
      have h1 : KeysDistinct (Table.exec triOps
          (Table.in_memory (TriIndexer.new ukey dkey bpred)) ops) :=
        Table.statesOk_last triOps KeysDistinct ops _ hok
      unfold KeysDistinct at h1
      rw [hpredu] at h1
      exact h1
    have hrbu := rebuiltAux_uniq ukey dkey bpred
      (Table.exec triOps (Table.in_memory (TriIndexer.new ukey dkey bpred)) ops).items
      hnd
      (Table.exec triOps (Table.in_memory (TriIndexer.new ukey dkey bpred))
        ops).items.length
      (le_refl _)
    by_cases hex : ∃ r, r < (Table.exec triOps
        (Table.in_memory (TriIndexer.new ukey dkey bpred)) ops).items.length ∧
        ukey ((Table.exec triOps (Table.in_memory (TriIndexer.new ukey dkey bpred))
          ops).items.getD r default) = v
    · rcases hex with ⟨r, hr, hk⟩
      have h1 : UniqueIndex.get (Table.exec triOps
          (Table.in_memory (TriIndexer.new ukey dkey bpred)) ops).indexer.uniq v =
          some r := by
        have h2 := hu.1 r hr
        rw [hpredu, hk] at h2
        exact h2
      have h3 : UniqueIndex.get (rebuiltAux ukey dkey bpred
          (Table.exec triOps (Table.in_memory (TriIndexer.new ukey dkey bpred))
            ops).items
          (Table.exec triOps (Table.in_memory (TriIndexer.new ukey dkey bpred))
            ops).items.length).uniq v = some r := by
        have h4 := hrbu.1 r hr
        rw [hk] at h4
        exact h4
      rw [h1, hrb, h3]
    · push_neg at hex
      have h1 : UniqueIndex.get (Table.exec triOps
          (Table.in_memory (TriIndexer.new ukey dkey bpred)) ops).indexer.uniq v =
          Option.none := by
        apply hu.2
        intro r hr
        rw [hpredu]
        exact hex r hr
      have h3 := hrbu.2 v hex
      rw [h1, hrb, h3]
  · intro t' row f item h
    have hu : Table.update_row triOps t' row f =
        { items := t'.items.set row (f item),
          indexer := IndexerOps.add triOps
            (IndexerOps.remove triOps t'.indexer row item) row (f item) } := by
      unfold Table.update_row
      rw [h]
    rw [hu]
    refine ⟨?_, ?_, ?_, ?_, ?_⟩
    · show UniqueIndex.get (UniqueIndex.add (UniqueIndex.remove t'.indexer.uniq row item)
        row (f item)) (t'.indexer.uniq.predicate (f item)) = some row
      rw [uniq_get_add, uniq_predicate_remove, if_pos rfl]
    · intro hne
      show UniqueIndex.get (UniqueIndex.add (UniqueIndex.remove t'.indexer.uniq row item)
        row (f item)) (t'.indexer.uniq.predicate item) = Option.none
      rw [uniq_get_add, uniq_predicate_remove, if_neg hne,
        uniq_get_remove, if_pos rfl]
    · show row ∈ DiscreteIndex.get (DiscreteIndex.add
        (DiscreteIndex.remove t'.indexer.disc row item) row (f item))
        (t'.indexer.disc.predicate (f item))
      rw [disc_get_add, disc_predicate_remove, if_pos rfl]
      exact Finset.mem_insert_self row _
    · intro hne
      show row ∉ DiscreteIndex.get (DiscreteIndex.add
        (DiscreteIndex.remove t'.indexer.disc row item) row (f item))
        (t'.indexer.disc.predicate item)
      rw [disc_get_add, disc_predicate_remove, if_neg hne,
        disc_get_remove, if_pos rfl]
      exact Finset.not_mem_erase row _
    · show row ∈ BooleanIndex.get (BooleanIndex.add
        (BooleanIndex.remove t'.indexer.boolIdx row item) row (f item)) ↔
        t'.indexer.boolIdx.predicate (f item) = true
      rw [bool_get_add, bool_get_remove, bool_predicate_remove]
      by_cases hp : t'.indexer.boolIdx.predicate (f item)
      · rw [if_pos hp]
        constructor
        · intro _
          exact hp
        · intro _
          exact Finset.mem_insert_self row _
      · rw [if_neg hp]
        constructor
        · intro hmem
          exact absurd hmem (Finset.not_mem_erase row _)
        · intro hp'
          exact absurd hp' hp

/-- Counterexample for C1 as stated: insert two records with colliding unique
key 5, then update row 1 to key 7.  Row 0 still holds a record with key 5, but
the unique index returns nothing for key 5 (the update's `remove` deleted the
whole entry), while the state rebuilt by one `add` per current row maps key 5
to row 0 — so the index state is not "exactly as if add(r, x) had been called
once per row", and a stale-free lookup by row 0's key misses it. -/
theorem claim_C1_counterexample :
    c1exTable.items.getD 0 default = 5 ∧
    UniqueIndex.get c1exTable.indexer.uniq
      (c1exTable.indexer.uniq.predicate (c1exTable.items.getD 0 default)) =
      Option.none ∧
    UniqueIndex.get (TriIndexer.rebuilt (fun x => x) (fun x => x % 2)
        (fun x => decide (10 ≤ x)) c1exTable.items).uniq
      (c1exTable.indexer.uniq.predicate (c1exTable.items.getD 0 default)) = some 0 ∧
    UniqueIndex.get c1exTable.indexer.uniq 5 ≠
      UniqueIndex.get (TriIndexer.rebuilt (fun x => x) (fun x => x % 2)
        (fun x => decide (10 ≤ x)) c1exTable.items).uniq 5 :=
  ⟨by decide, by decide, by decide, by decide⟩

/-- Witness for C1 (amended) on a mutation sequence whose unique keys stay
pairwise distinct at every state. -/
theorem claim_C1_witness :
    c1wTable.items.length ≤ 2 ^ 32 ∧
    Table.StatesOk triOps KeysDistinct
      (Table.in_memory (TriIndexer.new (fun x : Nat => x) (fun x : Nat => x % 2)
        (fun x : Nat => decide (10 ≤ x)))) c1wOps ∧
    DiscreteIndex.get c1wTable.indexer.disc 0 =
      DiscreteIndex.get (TriIndexer.rebuilt (fun x : Nat => x) (fun x : Nat => x % 2)
        (fun x : Nat => decide (10 ≤ x)) c1wTable.items).disc 0 ∧
    UniqueIndex.get c1wTable.indexer.uniq 35 =
      UniqueIndex.get (TriIndexer.rebuilt (fun x : Nat => x) (fun x : Nat => x % 2)
        (fun x : Nat => decide (10 ≤ x)) c1wTable.items).uniq 35 := by
  have hlen : c1wTable.items.length ≤ 2 ^ 32 := by decide
  have hok : Table.StatesOk triOps KeysDistinct
      (Table.in_memory (TriIndexer.new (fun x : Nat => x) (fun x : Nat => x % 2)
        (fun x : Nat => decide (10 ≤ x)))) c1wOps := by
    unfold c1wOps Table.StatesOk KeysDistinct
    refine ⟨by decide, by decide, by decide, ?_⟩
    unfold Table.StatesOk
    decide
  refine ⟨hlen, hok, ?_, ?_⟩
  · exact (claim_C1_amended (fun x : Nat => x) (fun x : Nat => x % 2)
      (fun x : Nat => decide (10 ≤ x)) c1wOps hlen).1 0
  · exact (claim_C1_amended (fun x : Nat => x) (fun x : Nat => x % 2)
      (fun x : Nat => decide (10 ≤ x)) c1wOps hlen).2.2.1 hok 35

/-- C6: BooleanIndex membership: `add` inserts the row exactly when the
predicate holds of the item and otherwise leaves the set unchanged; `remove`
removes the row unconditionally without evaluating the predicate (its result
does not depend on the item at all); consequently, when the add/remove
protocol is followed (a registered index driven by table inserts/updates,
with genuinely distinct row identifiers, i.e. at most 2^32 rows), `get`
returns exactly the rows whose current record satisfies the predicate. -/
theorem claim_C6 {T V W : Type} [DecidableEq V] [DecidableEq W] [Inhabited T]
    (idx : BooleanIndex T) (row : Nat) (item : T)
    (ukey : T → V) (dkey : T → W) (bpred : T → Bool) (ops : List (Op T)) :
    (idx.predicate item = true →
      BooleanIndex.get (BooleanIndex.add idx row item) =
        Selection.add (BooleanIndex.get idx) row) ∧
    (idx.predicate item = false →
      BooleanIndex.get (BooleanIndex.add idx row item) = BooleanIndex.get idx) ∧
    (BooleanIndex.get (BooleanIndex.remove idx row item) =
      Selection.remove (BooleanIndex.get idx) row) ∧
    (∀ item', BooleanIndex.remove idx row item = BooleanIndex.remove idx row item') ∧
    ((c1Table ukey dkey bpred ops).items.length ≤ 2 ^ 32 →
      ∀ r, r ∈ BooleanIndex.get (c1Table ukey dkey bpred ops).indexer.boolIdx ↔
        (r < (c1Table ukey dkey bpred ops).items.length ∧
          bpred ((c1Table ukey dkey bpred ops).items.getD r default) = true)) := by
  refine ⟨?_, ?_, rfl, fun item' => rfl, ?_⟩
  · intro hp
    rw [bool_get_add, if_pos hp]
  · intro hp
    rw [bool_get_add, if_neg (by simp [hp])]
  · intro hlen r
    have hc1 : c1Table ukey dkey bpred ops =
        Table.exec triOps (Table.in_memory (TriIndexer.new ukey dkey bpred)) ops := rfl
    rw [hc1] at hlen ⊢
    have hb : BoolCanon (Table.exec triOps
        (Table.in_memory (TriIndexer.new ukey dkey bpred)) ops) :=
      bool_canon_exec ops (Table.in_memory (TriIndexer.new ukey dkey bpred))
        (init_bool_canon ukey dkey bpred) hlen
    unfold BoolCanon at hb
    have hpredb : (Table.exec triOps (Table.in_memory (TriIndexer.new ukey dkey bpred))
        ops).indexer.boolIdx.predicate = bpred :=
      (exec_predicates ops (Table.in_memory (TriIndexer.new ukey dkey bpred))).2.2
    rw [hb, hpredb]
    simp [Finset.mem_filter, Finset.mem_range]

/-- Witness for C6 at a concrete predicate index and the concrete table
`c1wTable` (records 35 and 12, both at least 10). -/
theorem claim_C6_witness :
    ((BooleanIndex.new (fun x : Nat => decide (10 ≤ x))).predicate 12 = true ∧
      BooleanIndex.get (BooleanIndex.add
          (BooleanIndex.new (fun x : Nat => decide (10 ≤ x))) 1 12) =
        Selection.add
          (BooleanIndex.get (BooleanIndex.new (fun x : Nat => decide (10 ≤ x)))) 1) ∧
    (c1wTable.items.length ≤ 2 ^ 32 ∧
      (1 ∈ BooleanIndex.get c1wTable.indexer.boolIdx ↔
        (1 < c1wTable.items.length ∧
          (fun x : Nat => decide (10 ≤ x)) (c1wTable.items.getD 1 default) = true))) :=
  ⟨⟨by decide,
    (claim_C6 (BooleanIndex.new (fun x : Nat => decide (10 ≤ x))) 1 12
      (fun x : Nat => x) (fun x : Nat => x % 2) (fun x : Nat => decide (10 ≤ x))
      c1wOps).1 (by decide)⟩,
   ⟨by decide,
    (claim_C6 (BooleanIndex.new (fun x : Nat => decide (10 ≤ x))) 1 12
      (fun x : Nat => x) (fun x : Nat => x % 2) (fun x : Nat => decide (10 ≤ x))
      c1wOps).2.2.2.2 (by decide) 1⟩⟩
